import Mathlib

/-!
Verification of the bitcask-rs storage engine against its specification.

This file contains a shallow embedding of the engine's core code paths:
the on-disk record codec (`LogRecord.encode`, `DataFile.read_log_record`),
the in-memory index (`BTree` over an association list standing for
`BTreeMap`), the engine operations (`put` / `get` / `delete` /
`append_log_record` with rollover), the write batch
(`WriteBatch::commit`), the startup recovery
(`Engine::open` / `load_index_from_data_files`) and the user iterator.

Bytes are modelled as `Nat` (values kept below 256 where it matters),
files as `List Nat`, machine integers as `Nat` with explicit bounds.
Fallible Rust code returns `DbResult`, whose `crash` constructor stands
for a Rust panic (`unwrap` / `expect` / `unreachable!`).
-/

set_option autoImplicit false
set_option maxRecDepth 8192

namespace Bitcask

/-- Error kinds from `src/error.rs` (only those reachable from the
modelled code paths).  `batchTooLarge` is used by `batch.rs` but its
variant is absent from the `error.rs` in the snapshot; it is modelled
from the spec's `BATCH_TOO_LARGE`. -/
inductive DbError where
  | keyIsEmpty
  | keyNotFound
  | dataFileNotFound
  | indexUpdateFail
  | readDataFileEof
  | invalidLogRecordCrc
  | dataFileSizeTooSmall
  | batchTooLarge
  deriving Repr, DecidableEq

/-- Result of a fallible engine operation.  `crash` models a Rust panic
(`unwrap` on `None`/`Err`, `expect`, `unreachable!`). -/
inductive DbResult (α : Type) where
  | ok (a : α)
  | err (e : DbError)
  | crash
  deriving Repr, DecidableEq

/-- Structural worker for the varint encoder.  `fuel` only bounds the
recursion depth; 10 bytes are enough for every 64-bit `usize` that
`prost` can be handed (the zero-fuel branch is unreachable below
`128 ^ 10`). -/
def encodeVarintAux : Nat → Nat → List Nat
  | 0, n => [n]
  | fuel + 1, n =>
    if n < 128 then [n] else (n % 128 + 128) :: encodeVarintAux fuel (n / 128)

/-- `prost::encode_length_delimiter`: base-128 varint (LEB128) encoding
of a `usize`. -/
def encodeVarint (n : Nat) : List Nat := encodeVarintAux 10 n

/-- `prost::decode_length_delimiter`: decode a varint from the front of
a byte list, returning the value and the remaining bytes.  `none`
models the decode failure that the callers `unwrap` (a panic). -/
def decodeVarint : List Nat → Option (Nat × List Nat)
  | [] => none
  | b :: bs =>
    if b < 128 then some (b, bs)
    else
      match decodeVarint bs with
      | some (v, rest) => some (b - 128 + 128 * v, rest)
      | none => none

/-- `prost::length_delimiter_len`: the number of bytes of the varint
encoding of `n`. -/
def lengthDelimiterLen (n : Nat) : Nat := (encodeVarint n).length

/-- One bit-iteration of the reflected IEEE CRC-32 (polynomial
`0xEDB88320`), as computed by the `crc32fast` crate. -/
def crcStep (c : Nat) : Nat :=
  if c % 2 = 1 then (c / 2) ^^^ 0xEDB88320 else c / 2

/-- Absorb one byte into the running CRC state. -/
def crcByte (c b : Nat) : Nat := crcStep^[8] (c ^^^ b)

def crc32Aux : Nat → List Nat → Nat
  | c, [] => c
  | c, b :: bs => crc32Aux (crcByte c b) bs

/-- IEEE CRC-32 of a byte sequence (`crc32fast::Hasher`). -/
def crc32 (data : List Nat) : Nat := crc32Aux 0xFFFFFFFF data ^^^ 0xFFFFFFFF

/-- `BufMut::put_u32`: big-endian 4-byte encoding of a `u32`. -/
def putU32 (c : Nat) : List Nat :=
  [c / 2 ^ 24 % 256, c / 2 ^ 16 % 256, c / 2 ^ 8 % 256, c % 256]

/-- `Buf::get_u32`: big-endian decode of the first four bytes.  The
callers always supply at least four bytes; shorter input would panic in
Rust and never occurs in the modelled reads. -/
def getU32 : List Nat → Nat
  | b0 :: b1 :: b2 :: b3 :: _ => ((b0 * 256 + b1) * 256 + b2) * 256 + b3
  | _ => 0

/-- `LogRecordPos`: location `(file_id, offset)` of a record. -/
structure LogRecordPos where
  file_id : Nat
  offset : Nat
  deriving Repr, DecidableEq

/-- `LogRecordType`.  The snapshot's `log_record.rs` declares only
`NORMAL = 1` and `DELETE = 2`; the `TXNFINISHED` variant is used by
`db.rs` and `batch.rs` but missing from the snapshot's enum.
Modelled from the spec: `record_type ∈ {NORMAL, DELETE, TXN_FINISHED}`,
with `TXN_FINISHED` taking the next discriminant, 3. -/
inductive LogRecordType where
  | NORMAL
  | DELETE
  | TXNFINISHED
  deriving Repr, DecidableEq

/-- `record_type as u8`: the enum discriminant written to disk. -/
def LogRecordType.toByte : LogRecordType → Nat
  | .NORMAL => 1
  | .DELETE => 2
  | .TXNFINISHED => 3

/-- `impl From<u8> for LogRecordType`.  `none` models the
`unreachable!()` panic on any other byte.  The arm for 3 is modelled
from the spec (the snapshot's enum lacks the variant; without it every
recovery of a committed batch would panic, contradicting the code's own
passing batch-restart test). -/
def LogRecordType.fromByte : Nat → Option LogRecordType
  | 1 => some .NORMAL
  | 2 => some .DELETE
  | 3 => some .TXNFINISHED
  | _ => none

/-- `LogRecord`: one framed unit on disk. -/
structure LogRecord where
  key : List Nat
  value : List Nat
  record_type : LogRecordType
  deriving Repr, DecidableEq

/-- The body of the frame that the CRC is computed over:
type byte, the two varint lengths, key, value
(`LogRecord::encode_and_get_crc` before `put_u32`). -/
def LogRecord.encBody (r : LogRecord) : List Nat :=
  r.record_type.toByte :: (encodeVarint r.key.length ++
    (encodeVarint r.value.length ++ (r.key ++ r.value)))

/-- `LogRecord::get_crc`. -/
def LogRecord.get_crc (r : LogRecord) : Nat := crc32 r.encBody

/-- `LogRecord::encode`: the full frame, CRC appended big-endian. -/
def LogRecord.encode (r : LogRecord) : List Nat := r.encBody ++ putU32 r.get_crc

/-- `max_log_record_header_size()` = 1 + 2 · varint_len(u32::MAX) = 11. -/
def maxLogRecordHeaderSize : Nat := 1 + 2 * lengthDelimiterLen (2 ^ 32 - 1)

/-- `IOManager::read` through `File::read_at`: a positional read fills
the buffer from `offset` with as many bytes as the file holds there;
the remainder of the zeroed buffer stays zero (reads past end-of-file
are not errors). -/
def readZeroPad (file : List Nat) (offset len : Nat) : List Nat :=
  let avail := (file.drop offset).take len
  avail ++ List.replicate (len - avail.length) 0

/-- `DataFile::read_log_record`: read the fixed 11-byte header, decode
type and the two varint lengths (their `unwrap`s panic on a malformed
varint), treat a zero/zero length pair as end-of-file, read
`key_len + value_len + 4` bytes, rebuild the record (the `u8 →
LogRecordType` conversion panics on an unknown type byte), and compare
the stored CRC with the recomputed one. -/
def readLogRecord (file : List Nat) (offset : Nat) : DbResult (LogRecord × Nat) :=
  let headerBuf := readZeroPad file offset maxLogRecordHeaderSize
  match headerBuf with
  | [] => .crash
  | typeByte :: afterType =>
    match decodeVarint afterType with
    | none => .crash
    | some (keyLen, afterKeyLen) =>
      match decodeVarint afterKeyLen with
      | none => .crash
      | some (valueLen, _) =>
        if keyLen = 0 ∧ valueLen = 0 then .err .readDataFileEof
        else
          let actualHeaderSize := lengthDelimiterLen keyLen + lengthDelimiterLen valueLen + 1
          let kvBuf := readZeroPad file (offset + actualHeaderSize) (keyLen + valueLen + 4)
          match LogRecordType.fromByte typeByte with
          | none => .crash
          | some t =>
            let rec0 : LogRecord :=
              { key := kvBuf.take keyLen
                value := (kvBuf.take (kvBuf.length - 4)).drop keyLen
                record_type := t }
            let storedCrc := getU32 (kvBuf.drop (keyLen + valueLen))
            if storedCrc ≠ rec0.get_crc then .err .invalidLogRecordCrc
            else .ok (rec0, actualHeaderSize + keyLen + valueLen + 4)

/-! ## Index (`src/index/btree.rs`): `BTreeMap<Vec<u8>, LogRecordPos>`
modelled as an association list with unique keys. -/

/-- The in-memory index: user key → record location. -/
abbrev Index := List (List Nat × LogRecordPos)

/-- `BTreeMap::get`. -/
def mapGet : Index → List Nat → Option LogRecordPos
  | [], _ => none
  | (k0, p0) :: rest, k => if k0 = k then some p0 else mapGet rest k

/-- `BTreeMap::insert` (key part): replace in place or append. -/
def mapInsert : Index → List Nat → LogRecordPos → Index
  | [], k, p => [(k, p)]
  | (k0, p0) :: rest, k, p =>
    if k0 = k then (k, p) :: rest else (k0, p0) :: mapInsert rest k p

/-- `BTreeMap::remove`: the map without the key, and the removed value. -/
def mapRemove : Index → List Nat → Index × Option LogRecordPos
  | [], _ => ([], none)
  | (k0, p0) :: rest, k =>
    if k0 = k then (rest, some p0)
    else ((k0, p0) :: (mapRemove rest k).1, (mapRemove rest k).2)

/-- `BTree::put`: insert and return `true` unconditionally. -/
def btreePut (idx : Index) (key : List Nat) (pos : LogRecordPos) : Index × Bool :=
  (mapInsert idx key pos, true)

/-- `BTree::get`. -/
def btreeGet (idx : Index) (key : List Nat) : Option LogRecordPos := mapGet idx key

/-- `BTree::delete`: remove and return whether the key was present. -/
def btreeDelete (idx : Index) (key : List Nat) : Index × Bool :=
  ((mapRemove idx key).1, (mapRemove idx key).2.isSome)

/-! ## Engine (`src/db.rs`) -/

/-- `Options` (`src/options.rs`): `dir_path` is a filesystem detail not
modelled; the directory contents are instead passed to `Engine.open`
explicitly. -/
structure Options where
  data_file_size : Nat
  sync_write : Bool
  deriving Repr, DecidableEq

/-- Engine state.  A `DataFile` is its id together with its on-disk
bytes; the tracked `active_offset` models the active `DataFile`'s
`write_offset` (which recovery may set independently of the real file
length). -/
structure Engine where
  data_file_size : Nat
  sync_write : Bool
  active_id : Nat
  active_data : List Nat
  active_offset : Nat
  older_files : List (Nat × List Nat)
  index : Index
  file_ids : List Nat
  seq_num : Nat
  deriving Repr, DecidableEq

/-- Lookup in the `older_files` map (`HashMap<u32, DataFile>`). -/
def mapGetFile : List (Nat × List Nat) → Nat → Option (List Nat)
  | [], _ => none
  | (id0, d0) :: rest, fid => if id0 = fid then some d0 else mapGetFile rest fid

/-- `NON_TRANSACTION_SEQ_NUM` (`src/batch.rs`). -/
def NON_TRANSACTION_SEQ_NUM : Nat := 0

/-- `TXN_FINISH_KEY = b"txn-finish"` (`src/batch.rs`). -/
def TXN_FINISH_KEY : List Nat := [116, 120, 110, 45, 102, 105, 110, 105, 115, 104]

/-- `log_record_key_with_seq_num`: framed key `varint(seq_num) ++ key`. -/
def logRecordKeyWithSeqNum (key : List Nat) (seqNum : Nat) : List Nat :=
  encodeVarint seqNum ++ key

/-- `parse_log_record_key`: split a framed key into `(user_key,
seq_num)`.  `none` models the `unwrap` panic on a malformed varint. -/
def parseLogRecordKey (key : List Nat) : Option (List Nat × Nat) :=
  match decodeVarint key with
  | some (seqNum, rest) => some (rest, seqNum)
  | none => none

/-- `Engine::append_log_record`: roll the active file when the encoded
record would overflow `data_file_size` (the old active file's bytes
move to `older_files`, a fresh file with id `current + 1` becomes
active), then append at the tracked write offset and return the
pre-write position.  `sync` is a persistence no-op here. -/
def Engine.appendLogRecord (e : Engine) (record : LogRecord) : Engine × LogRecordPos :=
  let encoded := record.encode
  let e :=
    if e.active_offset + encoded.length > e.data_file_size then
      { e with
        older_files := (e.active_id, e.active_data) :: e.older_files
        active_id := e.active_id + 1
        active_data := []
        active_offset := 0 }
    else e
  let writeOffset := e.active_offset
  ({ e with
      active_data := e.active_data ++ encoded
      active_offset := e.active_offset + encoded.length },
   { file_id := e.active_id, offset := writeOffset })

/-- `Engine::get_value_by_position`: read from the active file when the
ids match, otherwise from an older file (`DATA_FILE_NOT_FOUND` when
absent); a DELETE record yields `KEY_NOT_FOUND`, any other non-NORMAL
type is `unreachable!()`. -/
def Engine.getValueByPosition (e : Engine) (pos : LogRecordPos) : DbResult (List Nat) :=
  let readRes :=
    if pos.file_id = e.active_id then readLogRecord e.active_data pos.offset
    else
      match mapGetFile e.older_files pos.file_id with
      | none => .err .dataFileNotFound
      | some data => readLogRecord data pos.offset
  match readRes with
  | .ok (record, _) =>
    match record.record_type with
    | .NORMAL => .ok record.value
    | .DELETE => .err .keyNotFound
    | .TXNFINISHED => .crash
  | .err e0 => .err e0
  | .crash => .crash

/-- `Engine::put`. -/
def Engine.put (e : Engine) (key value : List Nat) : DbResult Engine :=
  if key = [] then .err .keyIsEmpty
  else
    let record : LogRecord :=
      { key := logRecordKeyWithSeqNum key NON_TRANSACTION_SEQ_NUM
        value := value
        record_type := .NORMAL }
    let (e1, pos) := e.appendLogRecord record
    let (idx, okFlag) := btreePut e1.index key pos
    if okFlag then .ok { e1 with index := idx } else .err .indexUpdateFail

/-- `Engine::get`. -/
def Engine.get (e : Engine) (key : List Nat) : DbResult (List Nat) :=
  if key = [] then .err .keyIsEmpty
  else
    match btreeGet e.index key with
    | some pos => e.getValueByPosition pos
    | none => .err .keyNotFound

/-- `Engine::delete`: success without writing when the key is not
indexed; otherwise append a DELETE tombstone and drop the index
entry. -/
def Engine.delete (e : Engine) (key : List Nat) : DbResult Engine :=
  if key = [] then .err .keyIsEmpty
  else
    match btreeGet e.index key with
    | none => .ok e
    | some _ =>
      let record : LogRecord :=
        { key := logRecordKeyWithSeqNum key NON_TRANSACTION_SEQ_NUM
          value := []
          record_type := .DELETE }
      let (e1, _) := e.appendLogRecord record
      let (idx, existed) := btreeDelete e1.index key
      if existed then .ok { e1 with index := idx } else .err .indexUpdateFail

/-! ## Write batch (`src/batch.rs`).  The `pending_writes` hash map is
modelled as an association list with unique keys; `WriteOptions` is
missing from the snapshot's `options.rs`, so `max_batch_size` is
modelled from the spec and passed to `commit` directly. -/

abbrev PendingWrites := List (List Nat × LogRecord)

/-- Replace-or-append on the pending-writes map. -/
def pendingInsert : PendingWrites → List Nat → LogRecord → PendingWrites
  | [], k, r => [(k, r)]
  | (k0, r0) :: rest, k, r =>
    if k0 = k then (k, r) :: rest else (k0, r0) :: pendingInsert rest k r

/-- `WriteBatch::put`: stage a NORMAL record under the raw user key. -/
def wbPut (pending : PendingWrites) (key value : List Nat) : DbResult PendingWrites :=
  if key = [] then .err .keyIsEmpty
  else .ok (pendingInsert pending key { key := key, value := value, record_type := .NORMAL })

/-- `WriteBatch::delete`: un-stage when the key is unknown to the
engine's index, otherwise stage a DELETE record. -/
def wbDelete (e : Engine) (pending : PendingWrites) (key : List Nat) : DbResult PendingWrites :=
  if key = [] then .err .keyIsEmpty
  else
    match btreeGet e.index key with
    | none => .ok (pending.filter (fun p => p.1 ≠ key))
    | some _ =>
      .ok (pendingInsert pending key { key := key, value := [], record_type := .DELETE })

/-- The append loop of `WriteBatch::commit` step 5: write each staged
record with the framed key `varint(seq_num) ++ user_key`, recording the
returned location per user key. -/
def commitAppends : Engine → Nat → Index → PendingWrites → Engine × Index
  | e, _, positions, [] => (e, positions)
  | e, seqNum, positions, (_, rec) :: rest =>
    let logRecord : LogRecord :=
      { key := logRecordKeyWithSeqNum rec.key seqNum
        value := rec.value
        record_type := rec.record_type }
    let (e1, pos) := e.appendLogRecord logRecord
    commitAppends e1 seqNum (mapInsert positions rec.key pos) rest

/-- `WriteBatch::commit` step 8: apply staged effects to the index
(`positions.get(key).unwrap()` panics when a position is missing). -/
def applyBatchToIndex (positions : Index) : Index → PendingWrites → Option Index
  | idx, [] => some idx
  | idx, (key, rec) :: rest =>
    if rec.record_type = .NORMAL then
      match mapGet positions key with
      | none => none
      | some pos => applyBatchToIndex positions (btreePut idx rec.key pos).1 rest
    else if rec.record_type = .DELETE then
      applyBatchToIndex positions (btreeDelete idx rec.key).1 rest
    else applyBatchToIndex positions idx rest

/-- `WriteBatch::commit`: empty batches succeed without a sequence
number; oversized batches fail; otherwise allocate `seq_num`
(`fetch_add(1)`), append the staged records, append the `TXN_FINISHED`
terminator with key `varint(seq_num) ++ "txn-finish"`, and apply the
staged effects to the index. -/
def wbCommit (e : Engine) (maxBatchSize : Nat) (pending : PendingWrites) : DbResult Engine :=
  if pending = [] then .ok e
  else if pending.length > maxBatchSize then .err .batchTooLarge
  else
    let seqNum := e.seq_num
    let e1 := { e with seq_num := e.seq_num + 1 }
    let (e2, positions) := commitAppends e1 seqNum [] pending
    let finishRecord : LogRecord :=
      { key := logRecordKeyWithSeqNum TXN_FINISH_KEY seqNum
        value := []
        record_type := .TXNFINISHED }
    let (e3, _) := e2.appendLogRecord finishRecord
    match applyBatchToIndex positions e3.index pending with
    | none => .crash
    | some idx => .ok { e3 with index := idx }

/-! ## Recovery (`Engine::open` / `Engine::load_index_from_data_files`) -/

/-- `TransactionRecord`: a buffered transactional record with its
position.  The struct is imported by `db.rs` from `log_record.rs` but
absent from the snapshot's `log_record.rs`; modelled from its use. -/
structure TransactionRecord where
  record : LogRecord
  pos : LogRecordPos
  deriving Repr, DecidableEq

/-- The mutable state of the recovery scan: the index being rebuilt,
the buffered per-transaction records
(`HashMap<usize, Vec<TransactionRecord>>`), and the running maximum
sequence number. -/
structure RecState where
  index : Index
  txnBatches : List (Nat × List TransactionRecord)
  currentSeqNum : Nat
  deriving Repr, DecidableEq

def initRecState (idx : Index) : RecState :=
  { index := idx, txnBatches := [], currentSeqNum := NON_TRANSACTION_SEQ_NUM }

/-- `HashMap::get` on the transaction buffer. -/
def batchGet : List (Nat × List TransactionRecord) → Nat → Option (List TransactionRecord)
  | [], _ => none
  | (s0, rs0) :: rest, s => if s0 = s then some rs0 else batchGet rest s

/-- `entry(seq).or_insert(Vec::new()).push(tr)`. -/
def batchPush : List (Nat × List TransactionRecord) → Nat → TransactionRecord →
    List (Nat × List TransactionRecord)
  | [], s, tr => [(s, [tr])]
  | (s0, rs0) :: rest, s, tr =>
    if s0 = s then (s0, rs0 ++ [tr]) :: rest else (s0, rs0) :: batchPush rest s tr

/-- `HashMap::remove(&seq)`.  Keys are unique by construction, so
dropping every entry with the key coincides with removing the one
entry. -/
def batchRemove : List (Nat × List TransactionRecord) → Nat →
    List (Nat × List TransactionRecord)
  | [], _ => []
  | (s0, rs0) :: rest, s =>
    if s0 = s then batchRemove rest s else (s0, rs0) :: batchRemove rest s

/-- `Engine::update_index`: NORMAL → put, DELETE → delete, anything
else ignored. -/
def updateIndex (idx : Index) (key : List Nat) (t : LogRecordType) (pos : LogRecordPos) : Index :=
  match t with
  | .NORMAL => (btreePut idx key pos).1
  | .DELETE => (btreeDelete idx key).1
  | .TXNFINISHED => idx

/-- One record's dispatch inside `load_index_from_data_files`
(lines 256–299): parse the framed key (`unwrap` panics on failure),
apply non-transactional records immediately, drain the buffered bucket
on a `TXN_FINISHED` marker (`get(&seq_num).unwrap()` panics when the
bucket is absent), buffer other transactional records, and track the
maximum sequence number.  `none` is a panic. -/
def replayStep (st : RecState) (rp : LogRecord × LogRecordPos) : Option RecState :=
  let (record, pos) := rp
  match parseLogRecordKey record.key with
  | none => none
  | some (key, seqNum) =>
    let next : Option RecState :=
      if seqNum = NON_TRANSACTION_SEQ_NUM then
        some { st with index := updateIndex st.index key record.record_type pos }
      else if record.record_type = .TXNFINISHED then
        match batchGet st.txnBatches seqNum with
        | none => none
        | some records =>
          some { st with
            index := records.foldl
              (fun ix tr => updateIndex ix tr.record.key tr.record.record_type tr.pos) st.index
            txnBatches := batchRemove st.txnBatches seqNum }
      else
        some { st with
          txnBatches := batchPush st.txnBatches seqNum { record := { record with key := key }, pos := pos } }
    match next with
    | none => none
    | some st1 =>
      some { st1 with
        currentSeqNum := if seqNum > st1.currentSeqNum then seqNum else st1.currentSeqNum }

/-- The recovery dispatch over a whole sequence of records in scan
order. -/
def replayList : RecState → List (LogRecord × LogRecordPos) → Option RecState
  | st, [] => some st
  | st, rp :: rest =>
    match replayStep st rp with
    | none => none
    | some st1 => replayList st1 rest

/-- The per-file scan loop: read a record, dispatch it, advance the
offset by the consumed size; `READ_EOF` ends the file and returns the
offset reached.  `fuel` is a structural bound only: every successful
read consumes at least 6 bytes and any read wholly past the end of the
data is `READ_EOF`, so `data.length + 1` steps always suffice. -/
def scanFileLoop (fid : Nat) (data : List Nat) :
    Nat → Nat → RecState → DbResult (RecState × Nat)
  | 0, _, _ => .crash
  | fuel + 1, offset, st =>
    match readLogRecord data offset with
    | .err .readDataFileEof => .ok (st, offset)
    | .err e0 => .err e0
    | .crash => .crash
    | .ok (record, size) =>
      match replayStep st (record, { file_id := fid, offset := offset }) with
      | none => .crash
      | some st1 => scanFileLoop fid data fuel (offset + size) st1

def scanFile (fid : Nat) (data : List Nat) (st : RecState) : DbResult (RecState × Nat) :=
  scanFileLoop fid data (data.length + 1) 0 st

/-- The file loop of `load_index_from_data_files`: scan each id of
`file_ids` in order (the active file by id match, older files through
the map, whose `unwrap` panics on a missing id), and return the offset
reached in the file processed last (`i == file_ids.len() - 1`), which
the caller installs as the active file's write offset. -/
def loadIndexLoop (activeId : Nat) (activeData : List Nat) (olderFiles : List (Nat × List Nat)) :
    List Nat → RecState → DbResult (RecState × Nat)
  | [], st => .ok (st, 0)
  | fid :: rest, st =>
    let dataRes : DbResult (List Nat) :=
      if fid = activeId then .ok activeData
      else
        match mapGetFile olderFiles fid with
        | some d => .ok d
        | none => .crash
    match dataRes with
    | .ok data =>
      match scanFile fid data st with
      | .ok (st1, offset) =>
        if rest = [] then .ok (st1, offset)
        else loadIndexLoop activeId activeData olderFiles rest st1
      | .err e0 => .err e0
      | .crash => .crash
    | .err e0 => .err e0
    | .crash => .crash

/-- `Engine::load_index_from_data_files`: empty directory short-circuits
with sequence number 0 and the write offset untouched. -/
def loadIndexFromDataFiles (e : Engine) : DbResult (RecState × Nat) :=
  if e.file_ids = [] then .ok (initRecState e.index, e.active_offset)
  else loadIndexLoop e.active_id e.active_data e.older_files e.file_ids (initRecState e.index)

/-- `file_ids.sort()` inside `load_data_files`: ascending insertion
sort by file id. -/
def insertFileSorted (f : Nat × List Nat) : List (Nat × List Nat) → List (Nat × List Nat)
  | [] => [f]
  | g :: gs => if f.1 ≤ g.1 then f :: g :: gs else g :: insertFileSorted f gs

def sortFilesById (files : List (Nat × List Nat)) : List (Nat × List Nat) :=
  files.foldr insertFileSorted []

/-- `Engine::open`.  The directory is the list of `(file_id, bytes)`
pairs found on disk.  Mirrors the source: load files sorted ascending,
`reverse` them, collect `file_ids` *from the reversed list*, move all
but the first (largest-id) file into `older_files`, take the remaining
one as active (or create file 0 when the directory is empty), run
recovery, install the returned write offset, and store the recovered
sequence number when it is positive. -/
def Engine.open (opts : Options) (files : List (Nat × List Nat)) : DbResult Engine :=
  if opts.data_file_size = 0 then .err .dataFileSizeTooSmall
  else
    let dataFiles := (sortFilesById files).reverse
    let file_ids := dataFiles.map Prod.fst
    let older_files := dataFiles.drop 1
    let activeFile := match dataFiles with
      | [] => (0, ([] : List Nat))
      | f :: _ => f
    let e : Engine :=
      { data_file_size := opts.data_file_size
        sync_write := opts.sync_write
        active_id := activeFile.1
        active_data := activeFile.2
        active_offset := 0
        older_files := older_files
        index := []
        file_ids := file_ids
        seq_num := 1 }
    match loadIndexFromDataFiles e with
    | .ok (st, offset) =>
      let e1 := { e with index := st.index, active_offset := offset }
      .ok (if st.currentSeqNum > 0 then { e1 with seq_num := st.currentSeqNum } else e1)
    | .err e0 => .err e0
    | .crash => .crash

/-- The data files a closed engine leaves in its directory (the active
file plus the older files); re-opening from these models a restart. -/
def Engine.directoryFiles (e : Engine) : List (Nat × List Nat) :=
  (e.active_id, e.active_data) :: e.older_files

/-! ## Observers and concrete scenario states used by the
property statements -/

/-- The `file_ids` field of a successfully opened engine. -/
def resultFileIds (r : DbResult Engine) : Option (List Nat) :=
  match r with
  | .ok e => some e.file_ids
  | .err _ => none
  | .crash => none

/-- The sequence counter of a successfully opened engine. -/
def resultSeqNum (r : DbResult Engine) : Option Nat :=
  match r with
  | .ok e => some e.seq_num
  | .err _ => none
  | .crash => none

/-- The index entry of a key in a successfully opened engine. -/
def resultIndexGet (r : DbResult Engine) (k : List Nat) : Option LogRecordPos :=
  match r with
  | .ok e => mapGet e.index k
  | .err _ => none
  | .crash => none

/-- `get` on a successfully opened engine. -/
def resultGet (r : DbResult Engine) (k : List Nat) : DbResult (List Nat) :=
  match r with
  | .ok e => e.get k
  | .err e0 => .err e0
  | .crash => .crash

def bindOk (r : DbResult Engine) (f : Engine → DbResult Engine) : DbResult Engine :=
  match r with
  | .ok e => f e
  | .err e0 => .err e0
  | .crash => .crash

def demoOpts : Options := { data_file_size := 1000000, sync_write := false }

/-- Key `[97]` first written with value `"old"` (file 0), then
rewritten with value `"new"` (file 1): the directory state after one
rollover. -/
def demoOld : LogRecord :=
  { key := logRecordKeyWithSeqNum [97] NON_TRANSACTION_SEQ_NUM
    value := [111, 108, 100], record_type := .NORMAL }

def demoNew : LogRecord :=
  { key := logRecordKeyWithSeqNum [97] NON_TRANSACTION_SEQ_NUM
    value := [110, 101, 119], record_type := .NORMAL }

def demoTwoFiles : List (Nat × List Nat) := [(0, demoOld.encode), (1, demoNew.encode)]

/-- Two committed batches of two keys each on a fresh engine, then a
restart from the resulting directory (spec scenario 5). -/
def c3Pending1 : PendingWrites :=
  [([97], ⟨[97], [49], .NORMAL⟩), ([98], ⟨[98], [50], .NORMAL⟩)]

def c3Pending2 : PendingWrites :=
  [([99], ⟨[99], [51], .NORMAL⟩), ([100], ⟨[100], [52], .NORMAL⟩)]

def c3Reopened : DbResult Engine :=
  bindOk (bindOk (bindOk (Engine.open demoOpts [])
      (fun e => wbCommit e 10000 c3Pending1))
    (fun e => wbCommit e 10000 c3Pending2))
    (fun e => Engine.open demoOpts e.directoryFiles)

/-- The on-disk record that `WriteBatch::commit` writes for a staged
record: the staged type and value under the framed key
`varint(seq_num) ++ user_key`. -/
def framedRecord (seq : Nat) (rec : LogRecord) : LogRecord :=
  { key := logRecordKeyWithSeqNum rec.key seq
    value := rec.value
    record_type := rec.record_type }

/-- The sequence number a record's framed key parses to (`none` when
the varint prefix is malformed). -/
def seqOfRecord (r : LogRecord) : Option Nat :=
  (parseLogRecordKey r.key).map Prod.snd

/-- A transactional record of sequence number 1, its `TXN_FINISHED`
marker, and the two-record log they form — used by the C10 witness. -/
def c10Rec : LogRecord :=
  { key := logRecordKeyWithSeqNum [97] 1, value := [49], record_type := .NORMAL }

def c10Marker : LogRecord :=
  { key := logRecordKeyWithSeqNum TXN_FINISH_KEY 1, value := [], record_type := .TXNFINISHED }

def c10Log : List (LogRecord × LogRecordPos) :=
  [(c10Rec, ⟨0, 0⟩), (c10Marker, ⟨0, 12⟩)]

def c10St : RecState :=
  match replayList (initRecState []) c10Log with
  | some st => st
  | none => initRecState []

/-- A fresh engine and a two-key staging area used by the C4 witness. -/
def c4Base : Engine :=
  { data_file_size := 1000000, sync_write := false, active_id := 0, active_data := []
    active_offset := 0, older_files := [], index := [], file_ids := [], seq_num := 1 }

def c4Pending : PendingWrites :=
  [([97], { key := [97], value := [49], record_type := .NORMAL }),
   ([98], { key := [98], value := [50], record_type := .NORMAL })]

/-- A fresh engine, a put of key `[97]`, and its deletion — concrete
states used as the C9 witness. -/
def c9Base : Engine :=
  { data_file_size := 1000000, sync_write := false, active_id := 0, active_data := []
    active_offset := 0, older_files := [], index := [], file_ids := [], seq_num := 1 }

def c9AfterPut : Engine :=
  match c9Base.put [97] [49] with
  | .ok e1 => e1
  | .err _ => c9Base
  | .crash => c9Base

def c9AfterDel : Engine :=
  match c9AfterPut.delete [97] with
  | .ok e2 => e2
  | .err _ => c9Base
  | .crash => c9Base

/-- Flip bit `j` of the byte at index `m` (a single-bit on-disk
corruption). -/
def flipBitAt (l : List Nat) (m j : Nat) : List Nat :=
  l.set m (l.getD m 0 ^^^ 2 ^ j)

/-- A record as Rust's types constrain it: `Vec<u8>` contents below
256, lengths that fit in a `u32`, and a non-empty key (every record the
engine writes carries at least the one-byte sequence-number prefix). -/
def WFRecord (r : LogRecord) : Prop :=
  r.key ≠ [] ∧ r.key.length < 2 ^ 32 ∧ r.value.length < 2 ^ 32 ∧
    (∀ b ∈ r.key, b < 256) ∧ (∀ b ∈ r.value, b < 256)

/-- The bytes of file `fid` as `Engine::get_value_by_position` and the
recovery loop locate them: the active file on an id match, an older
file otherwise. -/
def Engine.fileData (e : Engine) (fid : Nat) : Option (List Nat) :=
  if fid = e.active_id then some e.active_data else mapGetFile e.older_files fid

/-- File `fid` holds the full encoded frame of `r` starting at
`pos.offset`. -/
def FileHasRecord (e : Engine) (pos : LogRecordPos) (r : LogRecord) : Prop :=
  ∃ pre suf, e.fileData pos.file_id = some (pre ++ (r.encode ++ suf)) ∧ pre.length = pos.offset

/-- Engine well-formedness: the tracked write offset is the true active
file length, older files carry smaller ids than the active file, and
index keys are unique. -/
def EngineWF (e : Engine) : Prop :=
  e.active_offset = e.active_data.length ∧
    (∀ p ∈ e.older_files, p.1 < e.active_id) ∧
    (e.index.map Prod.fst).Nodup

/-- Key/value pair acceptable to the write path. -/
def GoodKV (key value : List Nat) : Prop :=
  key ≠ [] ∧ key.length + 5 < 2 ^ 32 ∧ value.length < 2 ^ 32 ∧
    (∀ b ∈ key, b < 256) ∧ (∀ b ∈ value, b < 256)

/-! ## User iterator (`src/iterator.rs`, `BTreeIterator` in
`src/index/btree.rs`) -/

/-- `IteratorOptions`.  The source field `prefix` is named `pfx` here
(the identifier is reserved in this development). -/
structure IteratorOptions where
  pfx : List Nat
  reverse : Bool
  deriving Repr, DecidableEq

/-- Lexicographic byte order used by `BTreeMap<Vec<u8>, _>` iteration. -/
def lexLe : List Nat → List Nat → Bool
  | [], _ => true
  | _ :: _, [] => false
  | a :: as0, b :: bs0 => if a < b then true else if b < a then false else lexLe as0 bs0

def insertByKey (p : List Nat × LogRecordPos) :
    List (List Nat × LogRecordPos) → List (List Nat × LogRecordPos)
  | [] => [p]
  | q :: qs => if lexLe p.1 q.1 then p :: q :: qs else q :: insertByKey p qs

/-- The key-ascending materialization of the index that
`BTreeMap::iter` yields. -/
def sortByKey (idx : Index) : List (List Nat × LogRecordPos) :=
  idx.foldr insertByKey []

/-- `BTreeIterator`: the materialized `(key, pos)` pairs, a cursor, and
the options. -/
structure BTreeIterator where
  items : List (List Nat × LogRecordPos)
  curr_index : Nat
  options : IteratorOptions
  deriving Repr, DecidableEq

/-- `BTree::iter`: materialize the pairs in key order, reversed when
`options.reverse`. -/
def btreeIter (idx : Index) (options : IteratorOptions) : BTreeIterator :=
  let items := sortByKey idx
  { items := if options.reverse then items.reverse else items
    curr_index := 0
    options := options }

/-- The `while let` loop of `BTreeIterator::next`: advance the cursor,
skipping entries that do not start with the configured prefix.  The
loop over `items.get(curr_index)` is expressed structurally as a walk
over `items.drop curr` carrying the cursor value. -/
def btreeNextLoop (pfx : List Nat) : List (List Nat × LogRecordPos) → Nat →
    Option ((List Nat × LogRecordPos) × Nat)
  | [], _ => none
  | item :: rest, curr =>
    if pfx.isEmpty || pfx.isPrefixOf item.1 then some (item, curr + 1)
    else btreeNextLoop pfx rest (curr + 1)

/-- `BTreeIterator::next`. -/
def BTreeIterator.next (it : BTreeIterator) : Option ((List Nat × LogRecordPos) × BTreeIterator) :=
  if it.curr_index ≥ it.items.length then none
  else
    match btreeNextLoop it.options.pfx (it.items.drop it.curr_index) it.curr_index with
    | some (item, curr1) => some (item, { it with curr_index := curr1 })
    | none => none

/-- A user-level engine operation, for stating properties over
sequences of calls. -/
inductive EngOp where
  | put (key value : List Nat)
  | del (key : List Nat)
  deriving Repr, DecidableEq

/-- Run one operation; a failed call leaves the engine unchanged (the
only failures of `put`/`delete` in this model are rejected inputs,
which the code raises before mutating anything). -/
def applyOp (e : Engine) : EngOp → Engine
  | .put k v =>
    match e.put k v with
    | .ok e1 => e1
    | .err _ => e
    | .crash => e
  | .del k =>
    match e.delete k with
    | .ok e1 => e1
    | .err _ => e
    | .crash => e

def applyOps (e : Engine) (ops : List EngOp) : Engine := ops.foldl applyOp e

/-- An engine whose single data file holds one DELETE tombstone, with
the index (unusually) still pointing at it — the state the spec says
the iterator must defend against. -/
def c6DelEngine : Engine :=
  { data_file_size := 1000000, sync_write := false, active_id := 0
    active_data := (LogRecord.mk [0, 97] [] .DELETE).encode
    active_offset := (LogRecord.mk [0, 97] [] .DELETE).encode.length
    older_files := [], index := [([97], ⟨0, 0⟩)], file_ids := [0], seq_num := 1 }

def c6DelIter : BTreeIterator :=
  { items := [([97], ⟨0, 0⟩)], curr_index := 0, options := { pfx := [], reverse := false } }

def c6NormalEngine : Engine :=
  { data_file_size := 1000000, sync_write := false, active_id := 0
    active_data := (LogRecord.mk [0, 97] [119] .NORMAL).encode
    active_offset := (LogRecord.mk [0, 97] [119] .NORMAL).encode.length
    older_files := [], index := [([97], ⟨0, 0⟩)], file_ids := [0], seq_num := 1 }


/-- Outcome of one user-iterator `next` call. -/
inductive IterNext where
  | yield (key value : List Nat) (it : BTreeIterator)
  | done
  | crash
  deriving Repr, DecidableEq

/-- `Iterator::next` (`src/iterator.rs`): take the next index entry and
read its value through `get_value_by_position`, whose failure is
`.expect`-ed — a panic. -/
def Engine.iterNext (e : Engine) (it : BTreeIterator) : IterNext :=
  match it.next with
  | none => .done
  | some ((key, pos), it1) =>
    match e.getValueByPosition pos with
    | .ok value => .yield key value it1
    | .err _ => .crash
    | .crash => .crash

/-! ## Varint, u32 and CRC groundwork -/

theorem encodeVarintAux_ne_nil (fuel n : Nat) : encodeVarintAux fuel n ≠ [] := by
  cases fuel with
  | zero => simp [encodeVarintAux]
  | succ fuel =>
    simp only [encodeVarintAux]
    split <;> simp

theorem encodeVarint_ne_nil (n : Nat) : encodeVarint n ≠ [] :=
  encodeVarintAux_ne_nil 10 n

theorem encodeVarintAux_bytes_lt (fuel : Nat) : ∀ (n : Nat), n < 128 ^ fuel →
    ∀ b ∈ encodeVarintAux fuel n, b < 256 := by
  induction fuel with
  | zero =>
    intro n h b hb
    simp only [encodeVarintAux, List.mem_singleton] at hb
    have h0 : n < 1 := by simpa using h
    omega
  | succ fuel ih =>
    intro n h b hb
    simp only [encodeVarintAux] at hb
    by_cases hn : n < 128
    · rw [if_pos hn] at hb
      simp only [List.mem_singleton] at hb
      omega
    · rw [if_neg hn] at hb
      simp only [List.mem_cons] at hb
      rcases hb with hb | hb
      · have := Nat.mod_lt n (show 0 < 128 by omega)
        omega
      · refine ih (n / 128) ?_ b hb
        rw [Nat.div_lt_iff_lt_mul (by omega)]
        calc n < 128 ^ (fuel + 1) := h
          _ = 128 ^ fuel * 128 := by rw [pow_succ]

theorem encodeVarint_bytes_lt (n : Nat) (h : n < 128 ^ 10) :
    ∀ b ∈ encodeVarint n, b < 256 :=
  encodeVarintAux_bytes_lt 10 n h

theorem decodeVarint_encodeAux (fuel : Nat) : ∀ (n : Nat) (rest : List Nat),
    n < 128 ^ fuel → decodeVarint (encodeVarintAux fuel n ++ rest) = some (n, rest) := by
  induction fuel with
  | zero =>
    intro n rest h
    have hn : n = 0 := by simpa using h
    subst hn
    simp [encodeVarintAux, decodeVarint]
  | succ fuel ih =>
    intro n rest h
    simp only [encodeVarintAux]
    by_cases hn : n < 128
    · rw [if_pos hn]
      simp [decodeVarint, hn]
    · rw [if_neg hn]
      have hdiv : n / 128 < 128 ^ fuel := by
        rw [Nat.div_lt_iff_lt_mul (by omega)]
        calc n < 128 ^ (fuel + 1) := h
          _ = 128 ^ fuel * 128 := by rw [pow_succ]
      have hrec := ih (n / 128) rest hdiv
      simp only [List.cons_append, decodeVarint, List.append_eq]
      rw [if_neg (by omega), hrec]
      simp only [Option.some.injEq, Prod.mk.injEq, and_true]
      omega

theorem decodeVarint_encode (n : Nat) (rest : List Nat) (h : n < 128 ^ 10) :
    decodeVarint (encodeVarint n ++ rest) = some (n, rest) :=
  decodeVarint_encodeAux 10 n rest h

theorem encodeVarintAux_length_le : ∀ (fuel k n : Nat), n < 128 ^ k → 0 < k → k ≤ fuel →
    (encodeVarintAux fuel n).length ≤ k := by
  intro fuel
  induction fuel with
  | zero =>
    intro k n _ hk hkf
    omega
  | succ fuel ih =>
    intro k n h hk hkf
    simp only [encodeVarintAux]
    by_cases hn : n < 128
    · rw [if_pos hn]
      simpa using hk
    · rw [if_neg hn]
      simp only [List.length_cons]
      have hk2 : 2 ≤ k := by
        by_contra hlt
        have hk1 : k = 1 := by omega
        subst hk1
        simp at h
        omega
      have hdiv : n / 128 < 128 ^ (k - 1) := by
        rw [Nat.div_lt_iff_lt_mul (by omega)]
        have hpow : 128 ^ (k - 1) * 128 = 128 ^ k := by
          rw [← pow_succ]
          congr 1
          omega
        omega
      have := ih (k - 1) (n / 128) hdiv (by omega) (by omega)
      omega

theorem encodeVarint_length_le (n : Nat) (h : n < 2 ^ 32) :
    (encodeVarint n).length ≤ 5 := by
  refine encodeVarintAux_length_le 10 5 n ?_ (by omega) (by omega)
  calc n < 2 ^ 32 := h
    _ ≤ 128 ^ 5 := by norm_num

theorem putU32_length (c : Nat) : (putU32 c).length = 4 := rfl

theorem putU32_bytes_lt (c : Nat) : ∀ b ∈ putU32 c, b < 256 := by
  intro b hb
  simp only [putU32, List.mem_cons, List.not_mem_nil, or_false] at hb
  rcases hb with h | h | h | h <;> subst h <;>
    first
      | exact Nat.mod_lt _ (by omega)

theorem getU32_putU32 (c : Nat) (h : c < 2 ^ 32) : getU32 (putU32 c) = c := by
  simp only [putU32, getU32]
  omega

theorem getU32_inj (b0 b1 b2 b3 c0 c1 c2 c3 : Nat)
    (hb : b0 < 256 ∧ b1 < 256 ∧ b2 < 256 ∧ b3 < 256)
    (hc : c0 < 256 ∧ c1 < 256 ∧ c2 < 256 ∧ c3 < 256)
    (h : getU32 [b0, b1, b2, b3] = getU32 [c0, c1, c2, c3]) :
    b0 = c0 ∧ b1 = c1 ∧ b2 = c2 ∧ b3 = c3 := by
  simp only [getU32] at h
  omega

theorem crcStep_lt (c : Nat) (h : c < 2 ^ 32) : crcStep c < 2 ^ 32 := by
  unfold crcStep
  split
  · exact Nat.xor_lt_two_pow (by omega) (by norm_num)
  · omega

theorem crcStep_iterate_lt (k c : Nat) (h : c < 2 ^ 32) : crcStep^[k] c < 2 ^ 32 := by
  induction k generalizing c with
  | zero => simpa using h
  | succ k ih =>
    rw [Function.iterate_succ_apply]
    exact ih _ (crcStep_lt c h)

theorem crcByte_lt (c b : Nat) (hc : c < 2 ^ 32) (hb : b < 2 ^ 32) :
    crcByte c b < 2 ^ 32 :=
  crcStep_iterate_lt 8 _ (Nat.xor_lt_two_pow hc hb)

theorem crc32Aux_lt (l : List Nat) : ∀ (c : Nat), c < 2 ^ 32 →
    (∀ b ∈ l, b < 256) → crc32Aux c l < 2 ^ 32 := by
  induction l with
  | nil =>
    intro c hc _
    exact hc
  | cons b bs ih =>
    intro c hc hl
    have hb : b < 256 := hl b (List.mem_cons_self b bs)
    show crc32Aux (crcByte c b) bs < 2 ^ 32
    exact ih _ (crcByte_lt c b hc (by omega)) (fun x hx => hl x (List.mem_cons_of_mem b hx))

theorem crc32_lt (l : List Nat) (hl : ∀ b ∈ l, b < 256) : crc32 l < 2 ^ 32 := by
  unfold crc32
  exact Nat.xor_lt_two_pow (crc32Aux_lt l _ (by norm_num) hl) (by norm_num)

theorem encBody_bytes_lt (r : LogRecord) (h : WFRecord r) :
    ∀ b ∈ r.encBody, b < 256 := by
  obtain ⟨-, hk32, hv32, hk, hv⟩ := h
  have hk128 : r.key.length < 128 ^ 10 := by
    calc r.key.length < 2 ^ 32 := hk32
      _ ≤ 128 ^ 10 := by norm_num
  have hv128 : r.value.length < 128 ^ 10 := by
    calc r.value.length < 2 ^ 32 := hv32
      _ ≤ 128 ^ 10 := by norm_num
  intro b hb
  simp only [LogRecord.encBody, List.mem_cons, List.mem_append] at hb
  rcases hb with hb | hb | hb | hb | hb
  · subst hb
    cases r.record_type <;> simp [LogRecordType.toByte]
  · exact encodeVarint_bytes_lt _ hk128 b hb
  · exact encodeVarint_bytes_lt _ hv128 b hb
  · exact hk b hb
  · exact hv b hb

theorem get_crc_lt (r : LogRecord) (h : WFRecord r) : r.get_crc < 2 ^ 32 :=
  crc32_lt _ (encBody_bytes_lt r h)

theorem readZeroPad_of_le (file : List Nat) (offset len : Nat)
    (h : len ≤ (file.drop offset).length) :
    readZeroPad file offset len = (file.drop offset).take len := by
  unfold readZeroPad
  have hlen : ((file.drop offset).take len).length = len := by
    rw [List.length_take, Nat.min_eq_left h]
  simp [hlen]

/-- Reading at the start of a frame laid out as
`type · varint(|key|) · varint(|value|) · key · value · crc-bytes`:
the header decodes to the original lengths, key and value are recovered
verbatim, the type byte converts back, and success is decided purely by
the CRC comparison. -/
theorem readLogRecord_frame (pre v1 v2 key value cb suf : List Nat) (t : LogRecordType)
    (hv1 : v1 = encodeVarint key.length) (hv2 : v2 = encodeVarint value.length)
    (hkey : key ≠ []) (hk32 : key.length < 2 ^ 32) (hval32 : value.length < 2 ^ 32)
    (hcb : cb.length = 4) :
    readLogRecord
      (pre ++ (t.toByte :: (v1 ++ (v2 ++ (key ++ (value ++ (cb ++ suf))))))) pre.length =
      (if getU32 cb ≠ LogRecord.get_crc ⟨key, value, t⟩ then .err .invalidLogRecordCrc
       else .ok (⟨key, value, t⟩,
         lengthDelimiterLen key.length + lengthDelimiterLen value.length + 1 +
           (key.length + value.length + 4))) := by
  have hk128 : key.length < 128 ^ 10 := by
    calc key.length < 2 ^ 32 := hk32
      _ ≤ 128 ^ 10 := by norm_num
  have hval128 : value.length < 128 ^ 10 := by
    calc value.length < 2 ^ 32 := hval32
      _ ≤ 128 ^ 10 := by norm_num
  have hn1 : v1.length ≤ 5 := by rw [hv1]; exact encodeVarint_length_le _ hk32
  have hn2 : v2.length ≤ 5 := by rw [hv2]; exact encodeVarint_length_le _ hval32
  have hkl : key.length ≠ 0 := by
    intro h
    exact hkey (List.eq_nil_of_length_eq_zero h)
  have hdl1 : lengthDelimiterLen key.length = v1.length := by rw [hv1]; rfl
  have hdl2 : lengthDelimiterLen value.length = v2.length := by rw [hv2]; rfl
  have htake11 : (t.toByte :: (v1 ++ (v2 ++ (key ++ (value ++ (cb ++ suf)))))).take 11 =
      t.toByte :: (v1 ++ (v2 ++
        ((key ++ (value ++ (cb ++ suf))).take (10 - v1.length - v2.length)))) := by
    rw [show (11 : Nat) = 10 + 1 from rfl, List.take_succ_cons,
      List.take_append_eq_append_take, List.take_of_length_le (by omega),
      List.take_append_eq_append_take, List.take_of_length_le (by omega)]
  have hplen : (pre ++ (t.toByte :: (v1 ++ v2))).length =
      pre.length + (lengthDelimiterLen key.length + lengthDelimiterLen value.length + 1) := by
    simp only [List.length_append, List.length_cons, hdl1, hdl2]
  have hklen : (key ++ (value ++ cb)).length = key.length + value.length + 4 := by
    simp only [List.length_append, hcb]
    omega
  have hkv : readZeroPad
      (pre ++ (t.toByte :: (v1 ++ (v2 ++ (key ++ (value ++ (cb ++ suf)))))))
      (pre.length + (lengthDelimiterLen key.length + lengthDelimiterLen value.length + 1))
      (key.length + value.length + 4) = key ++ (value ++ cb) := by
    have hsplit : pre ++ (t.toByte :: (v1 ++ (v2 ++ (key ++ (value ++ (cb ++ suf)))))) =
        (pre ++ (t.toByte :: (v1 ++ v2))) ++ ((key ++ (value ++ cb)) ++ suf) := by
      simp [List.append_assoc]
    rw [hsplit, readZeroPad_of_le _ _ _ (by
      rw [List.drop_left' hplen]
      simp only [List.length_append, hcb]
      omega)]
    rw [List.drop_left' hplen, List.take_left' hklen]
  unfold readLogRecord
  rw [show maxLogRecordHeaderSize = 11 from rfl]
  rw [readZeroPad, List.drop_left, htake11]
  simp only [List.cons_append, List.append_assoc]
  rw [hv1, decodeVarint_encode _ _ hk128]
  dsimp only
  rw [hv2, decodeVarint_encode _ _ hval128]
  dsimp only
  simp only [← hv1, ← hv2]
  rw [if_neg (by simp [hkl])]
  rw [hkv]
  have hfrom : LogRecordType.fromByte t.toByte = some t := by cases t <;> rfl
  rw [hfrom]
  have hlen : (key ++ (value ++ cb)).length = key.length + value.length + 4 := by
    simp [hcb]
    omega
  have htakeKey : (key ++ (value ++ cb)).take key.length = key :=
    List.take_left' rfl
  have hvaluePart : ((key ++ (value ++ cb)).take ((key ++ (value ++ cb)).length - 4)).drop
      key.length = value := by
    rw [hlen]
    have hsplit2 : key ++ (value ++ cb) = (key ++ value) ++ cb := by
      simp [List.append_assoc]
    rw [hsplit2, show key.length + value.length + 4 - 4 = (key ++ value).length by
      simp]
    rw [List.take_left, List.drop_left]
  have hcrcPart : (key ++ (value ++ cb)).drop (key.length + value.length) = cb := by
    have hsplit2 : key ++ (value ++ cb) = (key ++ value) ++ cb := by
      simp [List.append_assoc]
    rw [hsplit2, List.drop_left' (by simp)]
  rw [htakeKey, hvaluePart, hcrcPart]
  dsimp only
  rw [show lengthDelimiterLen key.length + lengthDelimiterLen value.length + 1 +
      key.length + value.length + 4 =
      lengthDelimiterLen key.length + lengthDelimiterLen value.length + 1 +
      (key.length + value.length + 4) from by omega]

theorem xor_pow_ne (b j : Nat) : b ^^^ 2 ^ j ≠ b := by
  intro h
  have h2 : b ^^^ (b ^^^ 2 ^ j) = b ^^^ b := by rw [h]
  rw [← Nat.xor_assoc, Nat.xor_self, Nat.zero_xor] at h2
  have hp : 0 < 2 ^ j := Nat.two_pow_pos j
  omega

theorem encode_length (r : LogRecord) : r.encode.length =
    lengthDelimiterLen r.key.length + lengthDelimiterLen r.value.length + 1 +
      (r.key.length + r.value.length + 4) := by
  simp only [LogRecord.encode, LogRecord.encBody, putU32, List.length_append,
    List.length_cons, lengthDelimiterLen, List.length_nil]
  omega

/-- The generic codec round trip: the encoded frame of a well-formed
record placed at any offset reads back as the same record with the
frame length consumed. -/
theorem readLogRecord_encode (pre suf : List Nat) (r : LogRecord) (h : WFRecord r) :
    readLogRecord (pre ++ (r.encode ++ suf)) pre.length = .ok (r, r.encode.length) := by
  have hcrc := get_crc_lt r h
  obtain ⟨hkey, hk32, hv32, hkb, hvb⟩ := h
  have hshape : pre ++ (r.encode ++ suf) =
      pre ++ (r.record_type.toByte :: (encodeVarint r.key.length ++
        (encodeVarint r.value.length ++ (r.key ++ (r.value ++ (putU32 r.get_crc ++ suf)))))) := by
    simp [LogRecord.encode, LogRecord.encBody, List.append_assoc]
  rw [hshape, readLogRecord_frame pre _ _ r.key r.value (putU32 r.get_crc) suf r.record_type
    rfl rfl hkey hk32 hv32 (putU32_length _)]
  rw [if_neg (by
    simp only [ne_eq, not_not]
    rw [getU32_putU32 _ hcrc])]
  rw [encode_length]

theorem flipBitAt_append (a b : List Nat) (i j : Nat) :
    flipBitAt (a ++ b) (a.length + i) j = a ++ flipBitAt b i j := by
  induction a with
  | nil => simp
  | cons x xs ih =>
    simp only [List.cons_append, List.length_cons, flipBitAt] at *
    rw [show xs.length + 1 + i = (xs.length + i) + 1 from by omega]
    simp only [List.getD_cons_succ, List.set_cons_succ, List.cons.injEq, true_and]
    exact ih

theorem flipBitAt_length (l : List Nat) (i j : Nat) :
    (flipBitAt l i j).length = l.length := by
  simp [flipBitAt]

theorem getU32_flip_ne (c i j : Nat) (hc : c < 2 ^ 32) (hi : i < 4) (hj : j < 8) :
    getU32 (flipBitAt (putU32 c) i j) ≠ c := by
  have hpj : (2 : Nat) ^ j < 2 ^ 8 := Nat.pow_lt_pow_right (by omega) hj
  interval_cases i <;>
    · simp only [putU32, flipBitAt, List.getD_cons_succ, List.getD_cons_zero,
        List.set_cons_succ, List.set_cons_zero, getU32]
      intro hEq
      first
        | (have hne := xor_pow_ne (c / 2 ^ 24 % 256) j
           have hlt : c / 2 ^ 24 % 256 ^^^ 2 ^ j < 256 :=
             Nat.xor_lt_two_pow (show c / 2 ^ 24 % 256 < 2 ^ 8 by omega) hpj
           omega)
        | (have hne := xor_pow_ne (c / 2 ^ 16 % 256) j
           have hlt : c / 2 ^ 16 % 256 ^^^ 2 ^ j < 256 :=
             Nat.xor_lt_two_pow (show c / 2 ^ 16 % 256 < 2 ^ 8 by omega) hpj
           omega)
        | (have hne := xor_pow_ne (c / 2 ^ 8 % 256) j
           have hlt : c / 2 ^ 8 % 256 ^^^ 2 ^ j < 256 :=
             Nat.xor_lt_two_pow (show c / 2 ^ 8 % 256 < 2 ^ 8 by omega) hpj
           omega)
        | (have hne := xor_pow_ne (c % 256) j
           have hlt : c % 256 ^^^ 2 ^ j < 256 :=
             Nat.xor_lt_two_pow (show c % 256 < 2 ^ 8 by omega) hpj
           omega)

theorem xor_left_cancel (a x y : Nat) (h : a ^^^ x = a ^^^ y) : x = y := by
  have h2 : a ^^^ (a ^^^ x) = a ^^^ (a ^^^ y) := by rw [h]
  rwa [← Nat.xor_assoc, ← Nat.xor_assoc, Nat.xor_self, Nat.zero_xor, Nat.zero_xor] at h2

theorem xor_right_cancel (a x y : Nat) (h : x ^^^ a = y ^^^ a) : x = y := by
  rw [Nat.xor_comm x a, Nat.xor_comm y a] at h
  exact xor_left_cancel a x y h

/-- The polynomial constant has its top bit set, so xoring it into a
31-bit value always produces a value of at least `2^31`. -/
theorem xor_poly_ge (x : Nat) (hx : x < 2 ^ 31) : 2 ^ 31 ≤ x ^^^ 0xEDB88320 := by
  have hbit : (x ^^^ 0xEDB88320).testBit 31 = true := by
    rw [Nat.testBit_xor, Nat.testBit_lt_two_pow hx]
    decide
  exact Nat.testBit_implies_ge hbit

/-- One CRC bit-step is injective on 32-bit states: the shifted-out
parity is re-encoded in the polynomial's top bit. -/
theorem crcStep_inj (a b : Nat) (ha : a < 2 ^ 32) (hb : b < 2 ^ 32)
    (h : crcStep a = crcStep b) : a = b := by
  have h31 : (2 : Nat) ^ 31 = 2147483648 := by norm_num
  have h32 : (2 : Nat) ^ 32 = 4294967296 := by norm_num
  unfold crcStep at h
  by_cases ha2 : a % 2 = 1 <;> by_cases hb2 : b % 2 = 1
  · rw [if_pos ha2, if_pos hb2] at h
    rw [Nat.xor_comm (a / 2) _, Nat.xor_comm (b / 2) _] at h
    have := xor_left_cancel _ _ _ h
    omega
  · rw [if_pos ha2, if_neg hb2] at h
    have hge := xor_poly_ge (a / 2) (by omega)
    rw [h] at hge
    omega
  · rw [if_neg ha2, if_pos hb2] at h
    have hge := xor_poly_ge (b / 2) (by omega)
    rw [← h] at hge
    omega
  · rw [if_neg ha2, if_neg hb2] at h
    omega

theorem crcStep_iterate_inj (k : Nat) : ∀ a b, a < 2 ^ 32 → b < 2 ^ 32 →
    crcStep^[k] a = crcStep^[k] b → a = b := by
  induction k with
  | zero => intro a b _ _ h; simpa using h
  | succ k ih =>
    intro a b ha hb h
    rw [Function.iterate_succ_apply, Function.iterate_succ_apply] at h
    exact crcStep_inj a b ha hb (ih _ _ (crcStep_lt a ha) (crcStep_lt b hb) h)

theorem crcByte_state_inj (c c' b : Nat) (hc : c < 2 ^ 32) (hc' : c' < 2 ^ 32)
    (hb : b < 2 ^ 32) (h : crcByte c b = crcByte c' b) : c = c' := by
  unfold crcByte at h
  have h2 := crcStep_iterate_inj 8 _ _ (Nat.xor_lt_two_pow hc hb) (Nat.xor_lt_two_pow hc' hb) h
  rw [Nat.xor_comm c b, Nat.xor_comm c' b] at h2
  exact xor_left_cancel b c c' h2

theorem crcByte_byte_inj (c b b' : Nat) (hc : c < 2 ^ 32) (hb : b < 2 ^ 32) (hb' : b' < 2 ^ 32)
    (h : crcByte c b = crcByte c b') : b = b' := by
  unfold crcByte at h
  exact xor_left_cancel c b b'
    (crcStep_iterate_inj 8 _ _ (Nat.xor_lt_two_pow hc hb) (Nat.xor_lt_two_pow hc hb') h)

/-- Absorbing a fixed byte sequence is injective on 32-bit states. -/
theorem crc32Aux_state_inj (bs : List Nat) : ∀ c c', c < 2 ^ 32 → c' < 2 ^ 32 →
    (∀ b ∈ bs, b < 256) → crc32Aux c bs = crc32Aux c' bs → c = c' := by
  induction bs with
  | nil => intro c c' _ _ _ h; exact h
  | cons b rest ih =>
    intro c c' hc hc' hbs h
    have hb : b < 256 := hbs b (List.mem_cons_self b rest)
    have hb32 : b < 2 ^ 32 := by omega
    have h1 : crc32Aux (crcByte c b) rest = crc32Aux (crcByte c' b) rest := h
    have h2 := ih _ _ (crcByte_lt c b hc hb32) (crcByte_lt c' b hc' hb32)
      (fun x hx => hbs x (List.mem_cons_of_mem b hx)) h1
    exact crcByte_state_inj c c' b hc hc' hb32 h2

theorem crc32Aux_append (xs ys : List Nat) : ∀ c,
    crc32Aux c (xs ++ ys) = crc32Aux (crc32Aux c xs) ys := by
  induction xs with
  | nil => intro c; rfl
  | cons b rest ih => intro c; exact ih (crcByte c b)

/-- CRC-32 detects every single-bit error: flipping one bit of one byte
of the input always changes the checksum. -/
theorem crc32_flip_ne (xs ys : List Nat) (b j : Nat) (hb : b < 256) (hj : j < 8)
    (hxs : ∀ x ∈ xs, x < 256) (hys : ∀ x ∈ ys, x < 256) :
    crc32 (xs ++ (b ^^^ 2 ^ j) :: ys) ≠ crc32 (xs ++ b :: ys) := by
  intro h
  unfold crc32 at h
  have h1 := xor_right_cancel 0xFFFFFFFF _ _ h
  rw [crc32Aux_append, crc32Aux_append] at h1
  have hcx : crc32Aux 0xFFFFFFFF xs < 2 ^ 32 := crc32Aux_lt xs _ (by norm_num) hxs
  have hbj : b ^^^ 2 ^ j < 256 := by
    have := Nat.xor_lt_two_pow (show b < 2 ^ 8 by omega)
      (Nat.pow_lt_pow_right (show 1 < 2 by omega) hj)
    simpa using this
  have h2 : crc32Aux (crcByte (crc32Aux 0xFFFFFFFF xs) (b ^^^ 2 ^ j)) ys =
      crc32Aux (crcByte (crc32Aux 0xFFFFFFFF xs) b) ys := h1
  have h3 := crc32Aux_state_inj ys _ _
    (crcByte_lt _ _ hcx (by omega)) (crcByte_lt _ _ hcx (by omega)) hys h2
  have h4 := crcByte_byte_inj _ _ _ hcx (by omega) (by omega) h3
  exact xor_pow_ne b j h4

/-- Split a list at a valid index into prefix, element and suffix. -/
theorem list_decomp_at (l : List Nat) (i : Nat) (h : i < l.length) :
    l = l.take i ++ l.getD i 0 :: l.drop (i + 1) := by
  induction l generalizing i with
  | nil => simp at h
  | cons x xs ih =>
    cases i with
    | zero => simp
    | succ i =>
      have h2 := ih i (by simpa using h)
      simp only [List.take_succ_cons, List.drop_succ_cons, List.getD_cons_succ]
      exact congrArg (List.cons x) h2

/-- Flipping the bit at the position of an explicitly decomposed byte
xors that byte with the bit mask. -/
theorem flipBitAt_decomp (a : List Nat) (x : Nat) (bsuf : List Nat) (m j : Nat)
    (hm : m = a.length) :
    flipBitAt (a ++ x :: bsuf) m j = a ++ (x ^^^ 2 ^ j) :: bsuf := by
  subst hm
  have h := flipBitAt_append a (x :: bsuf) 0 j
  simpa [flipBitAt] using h

/-- C8: codec round trip — for every record with a non-empty key whose
key and value lengths fit in a `u32`, writing `encode(record)` at
offset `o` of a data file makes `read_log_record(o)` return the same
record together with a consumed size of `encode(record).length`. -/
theorem c8_codec_roundtrip (pre suf : List Nat) (r : LogRecord) (h : WFRecord r) :
    readLogRecord (pre ++ (r.encode ++ suf)) pre.length = .ok (r, r.encode.length) :=
  readLogRecord_encode pre suf r h

/-- Witness for C8 at a concrete record surrounded by junk bytes. -/
theorem c8_codec_roundtrip_witness :
    readLogRecord ([7, 7] ++ ((LogRecord.mk [104, 105] [119] .NORMAL).encode ++ [9])) 2 =
      .ok (LogRecord.mk [104, 105] [119] .NORMAL, 10) :=
  c8_codec_roundtrip [7, 7] [9] (LogRecord.mk [104, 105] [119] .NORMAL)
    ⟨by decide, by decide, by decide, by decide, by decide⟩

/-- C7 counterexample: flipping bit 2 of the type byte of a well-formed
frame makes `read_log_record` panic (the `u8 → LogRecordType`
conversion hits `unreachable!()` before the CRC is ever checked), not
fail with `INVALID_CRC`. -/
theorem c7_flip_counterexample :
    readLogRecord (flipBitAt (LogRecord.mk [104] [119] .NORMAL).encode 0 2) 0 = .crash ∧
      (DbResult.crash : DbResult (LogRecord × Nat)) ≠ .err .invalidLogRecordCrc := by
  constructor
  · decide
  · decide

/-- Flipping any single bit of the trailing CRC field of a well-formed
frame makes reading the frame fail with `INVALID_CRC`. -/
theorem c7_crc_field_flip (r : LogRecord) (h : WFRecord r) (i j : Nat)
    (hi : i < 4) (hj : j < 8) :
    readLogRecord (flipBitAt r.encode (r.encBody.length + i) j) 0 =
      .err .invalidLogRecordCrc := by
  have hcrc := get_crc_lt r h
  obtain ⟨hkey, hk32, hv32, hkb, hvb⟩ := h
  have hflip : flipBitAt r.encode (r.encBody.length + i) j =
      r.encBody ++ flipBitAt (putU32 r.get_crc) i j := by
    rw [LogRecord.encode, flipBitAt_append]
  have hlen4 : (flipBitAt (putU32 r.get_crc) i j).length = 4 := by
    rw [flipBitAt_length, putU32_length]
  have hframe := readLogRecord_frame [] _ _ r.key r.value
    (flipBitAt (putU32 r.get_crc) i j) [] r.record_type rfl rfl hkey hk32 hv32 hlen4
  simp only [List.nil_append, List.length_nil, List.append_nil] at hframe
  have hshape : r.encBody ++ flipBitAt (putU32 r.get_crc) i j =
      r.record_type.toByte :: (encodeVarint r.key.length ++
        (encodeVarint r.value.length ++ (r.key ++ (r.value ++
          flipBitAt (putU32 r.get_crc) i j)))) := by
    simp [LogRecord.encBody, List.append_assoc]
  rw [hflip, hshape, hframe, if_pos (getU32_flip_ne _ i j hcrc hi hj)]

/-- Concrete CRC-byte flip exercising the CRC-field case. -/
theorem c7_crc_field_flip_witness :
    readLogRecord (flipBitAt (LogRecord.mk [104, 105] [120] .NORMAL).encode
      ((LogRecord.mk [104, 105] [120] .NORMAL).encBody.length + 3) 0) 0 =
      .err .invalidLogRecordCrc :=
  c7_crc_field_flip (LogRecord.mk [104, 105] [120] .NORMAL)
    ⟨by decide, by decide, by decide, by decide, by decide⟩ 3 0 (by decide) (by decide)

/-- Flipping one bit of one byte of the key-plus-value region of a
well-formed frame makes reading the frame fail with `INVALID_CRC`:
the header re-parses to the same lengths, so the record is rebuilt
with exactly one flipped payload byte, and the recomputed CRC differs
from the stored one. -/
theorem readLogRecord_flip_invalid (t : LogRecordType)
    (key value kF vF kP kc : List Nat) (x j : Nat) (hj : j < 8)
    (hbody : key ++ value = kP ++ x :: kc)
    (hbody2 : kF ++ vF = kP ++ (x ^^^ 2 ^ j) :: kc)
    (hkl : kF.length = key.length) (hvl : vF.length = value.length)
    (hkF : kF ≠ [])
    (hkey : key ≠ []) (hk32 : key.length < 2 ^ 32) (hv32 : value.length < 2 ^ 32)
    (hkb : ∀ b ∈ key, b < 256) (hvb : ∀ b ∈ value, b < 256) :
    readLogRecord
      (flipBitAt (LogRecord.encode ⟨key, value, t⟩)
        (1 + (encodeVarint key.length).length + (encodeVarint value.length).length +
          kP.length) j) 0 =
      .err .invalidLogRecordCrc := by
  have hgr : LogRecord.get_crc ⟨key, value, t⟩ < 2 ^ 32 :=
    get_crc_lt ⟨key, value, t⟩ ⟨hkey, hk32, hv32, hkb, hvb⟩
  have hk128 : key.length < 128 ^ 10 := by
    calc key.length < 2 ^ 32 := hk32
      _ ≤ 128 ^ 10 := by norm_num
  have hv128 : value.length < 128 ^ 10 := by
    calc value.length < 2 ^ 32 := hv32
      _ ≤ 128 ^ 10 := by norm_num
  have hkv : ∀ b ∈ key ++ value, b < 256 := by
    intro b hb
    rcases List.mem_append.mp hb with h | h
    · exact hkb b h
    · exact hvb b h
  have hx : x < 256 := hkv x (by
    rw [hbody]
    exact List.mem_append.mpr (Or.inr (List.mem_cons_self _ _)))
  have hpre : ∀ b ∈ LogRecordType.toByte t ::
      (encodeVarint key.length ++ encodeVarint value.length) ++ kP, b < 256 := by
    intro b hb
    rcases List.mem_append.mp hb with h | h
    · rcases List.mem_cons.mp h with h2 | h2
      · subst h2
        cases t <;> decide
      · rcases List.mem_append.mp h2 with h3 | h3
        · exact encodeVarint_bytes_lt key.length hk128 b h3
        · exact encodeVarint_bytes_lt value.length hv128 b h3
    · exact hkv b (by
        rw [hbody]
        exact List.mem_append.mpr (Or.inl h))
  have hkc : ∀ b ∈ kc, b < 256 := fun b h2 => hkv b (by
    rw [hbody]
    exact List.mem_append.mpr (Or.inr (List.mem_cons_of_mem _ h2)))
  have hflat : LogRecord.encode ⟨key, value, t⟩ =
      (LogRecordType.toByte t :: (encodeVarint key.length ++ encodeVarint value.length) ++ kP)
        ++ x :: (kc ++ putU32 (LogRecord.get_crc ⟨key, value, t⟩)) := by
    simp only [LogRecord.encode, LogRecord.encBody]
    rw [hbody]
    simp [List.append_assoc]
  have hmEq : 1 + (encodeVarint key.length).length + (encodeVarint value.length).length +
      kP.length =
      (LogRecordType.toByte t ::
        (encodeVarint key.length ++ encodeVarint value.length) ++ kP).length := by
    simp only [List.length_append, List.length_cons]
    omega
  rw [hflat, flipBitAt_decomp _ _ _ _ j hmEq]
  have hb2 : kF ++ (vF ++ putU32 (LogRecord.get_crc ⟨key, value, t⟩)) =
      kP ++ ((x ^^^ 2 ^ j) :: (kc ++ putU32 (LogRecord.get_crc ⟨key, value, t⟩))) := by
    have h2 := congrArg (fun l => l ++ putU32 (LogRecord.get_crc ⟨key, value, t⟩)) hbody2
    simpa [List.append_assoc] using h2
  have hshape : (LogRecordType.toByte t ::
        (encodeVarint key.length ++ encodeVarint value.length) ++ kP)
        ++ (x ^^^ 2 ^ j) :: (kc ++ putU32 (LogRecord.get_crc ⟨key, value, t⟩)) =
      LogRecordType.toByte t :: (encodeVarint key.length ++ (encodeVarint value.length ++
        (kF ++ (vF ++ (putU32 (LogRecord.get_crc ⟨key, value, t⟩) ++ []))))) := by
    simp only [List.append_nil, List.cons_append, List.append_assoc]
    rw [hb2]
  have hframe := readLogRecord_frame [] (encodeVarint key.length) (encodeVarint value.length)
    kF vF (putU32 (LogRecord.get_crc ⟨key, value, t⟩)) [] t
    (by rw [hkl]) (by rw [hvl]) hkF (by rw [hkl]; exact hk32) (by rw [hvl]; exact hv32)
    (putU32_length _)
  simp only [List.nil_append, List.length_nil] at hframe
  rw [hshape, hframe]
  have hbodyF : LogRecord.encBody ⟨kF, vF, t⟩ =
      (LogRecordType.toByte t :: (encodeVarint key.length ++ encodeVarint value.length) ++ kP)
        ++ (x ^^^ 2 ^ j) :: kc := by
    simp only [LogRecord.encBody]
    rw [hkl, hvl, hbody2]
    simp [List.append_assoc]
  have hbodyO : LogRecord.encBody ⟨key, value, t⟩ =
      (LogRecordType.toByte t :: (encodeVarint key.length ++ encodeVarint value.length) ++ kP)
        ++ x :: kc := by
    simp only [LogRecord.encBody]
    rw [hbody]
    simp [List.append_assoc]
  rw [if_pos ?_]
  rw [getU32_putU32 _ hgr]
  show LogRecord.get_crc ⟨key, value, t⟩ ≠ LogRecord.get_crc ⟨kF, vF, t⟩
  unfold LogRecord.get_crc
  rw [hbodyF, hbodyO]
  exact (crc32_flip_ne _ kc x j hx hj hpre hkc).symm

/-- C7 (amended): flipping any single bit of any byte of a well-formed
frame past its header — a key byte, a value byte, or one of the four
trailing CRC bytes — makes reading the frame at its offset fail with
`INVALID_CRC`; a flip in the type byte instead panics, and a flip in
the length varints can have other outcomes. -/
theorem c7_single_bit_flip (r : LogRecord) (h : WFRecord r) (m j : Nat)
    (hm1 : 1 + lengthDelimiterLen r.key.length + lengthDelimiterLen r.value.length ≤ m)
    (hm2 : m < r.encode.length) (hj : j < 8) :
    readLogRecord (flipBitAt r.encode m j) 0 = .err .invalidLogRecordCrc := by
  obtain ⟨hkey, hk32, hv32, hkb, hvb⟩ := h
  have hlen := encode_length r
  simp only [lengthDelimiterLen] at hm1 hlen
  obtain ⟨i, hmi⟩ : ∃ i, m = 1 + (encodeVarint r.key.length).length +
      (encodeVarint r.value.length).length + i :=
    ⟨m - (1 + (encodeVarint r.key.length).length + (encodeVarint r.value.length).length),
      by omega⟩
  have hi4 : i < r.key.length + r.value.length + 4 := by omega
  subst hmi
  by_cases hik : i < r.key.length
  · have hdec := list_decomp_at r.key i hik
    have hcore := readLogRecord_flip_invalid r.record_type r.key r.value
      (r.key.take i ++ (r.key.getD i 0 ^^^ 2 ^ j) :: r.key.drop (i + 1)) r.value
      (r.key.take i) (r.key.drop (i + 1) ++ r.value) (r.key.getD i 0) j hj
      (by
        conv_lhs => rw [hdec]
        simp [List.append_assoc])
      (by simp [List.append_assoc])
      (by
        simp only [List.length_append, List.length_cons, List.length_take, List.length_drop]
        omega)
      rfl
      (by simp)
      hkey hk32 hv32 hkb hvb
    rw [show (r.key.take i).length = i from by rw [List.length_take]; omega] at hcore
    exact hcore
  · by_cases hiv : i < r.key.length + r.value.length
    · obtain ⟨i2, hi2⟩ : ∃ i2, i = r.key.length + i2 := ⟨i - r.key.length, by omega⟩
      have hi2v : i2 < r.value.length := by omega
      subst hi2
      have hdec := list_decomp_at r.value i2 hi2v
      have hcore := readLogRecord_flip_invalid r.record_type r.key r.value
        r.key (r.value.take i2 ++ (r.value.getD i2 0 ^^^ 2 ^ j) :: r.value.drop (i2 + 1))
        (r.key ++ r.value.take i2) (r.value.drop (i2 + 1)) (r.value.getD i2 0) j hj
        (by
          conv_lhs => rw [hdec]
          simp [List.append_assoc])
        (by simp [List.append_assoc])
        rfl
        (by
          simp only [List.length_append, List.length_cons, List.length_take, List.length_drop]
          omega)
        hkey
        hkey hk32 hv32 hkb hvb
      rw [show (r.key ++ r.value.take i2).length = r.key.length + i2 from by
        rw [List.length_append, List.length_take]; omega] at hcore
      exact hcore
    · obtain ⟨i3, hi3⟩ : ∃ i3, i = r.key.length + r.value.length + i3 :=
        ⟨i - (r.key.length + r.value.length), by omega⟩
      have hbl : r.encBody.length = 1 + (encodeVarint r.key.length).length +
          (encodeVarint r.value.length).length + (r.key.length + r.value.length) := by
        simp only [LogRecord.encBody, List.length_cons, List.length_append]
        omega
      rw [show 1 + (encodeVarint r.key.length).length + (encodeVarint r.value.length).length +
          i = r.encBody.length + i3 from by rw [hbl]; omega]
      exact c7_crc_field_flip r ⟨hkey, hk32, hv32, hkb, hvb⟩ i3 j (by omega) hj

/-- Witness for the amended C7: flipping bit 5 of the frame's byte 4 (a
key byte of a concrete record) reads back as `INVALID_CRC`. -/
theorem c7_single_bit_flip_witness :
    (1 + lengthDelimiterLen (LogRecord.mk [104, 105] [120] .NORMAL).key.length +
        lengthDelimiterLen (LogRecord.mk [104, 105] [120] .NORMAL).value.length ≤ 4) ∧
    readLogRecord (flipBitAt (LogRecord.mk [104, 105] [120] .NORMAL).encode 4 5) 0 =
      .err .invalidLogRecordCrc :=
  ⟨by decide, c7_single_bit_flip (LogRecord.mk [104, 105] [120] .NORMAL)
    ⟨by decide, by decide, by decide, by decide, by decide⟩ 4 5
    (by decide) (by decide) (by decide)⟩

/-! ## Association-list index lemmas -/

theorem mapGet_insert_self (m : Index) (k : List Nat) (p : LogRecordPos) :
    mapGet (mapInsert m k p) k = some p := by
  induction m with
  | nil => simp [mapInsert, mapGet]
  | cons kv rest ih =>
    obtain ⟨k0, p0⟩ := kv
    by_cases h : k0 = k
    · subst h
      simp [mapInsert, mapGet]
    · simp [mapInsert, mapGet, h, ih]

theorem mapGet_insert_ne (m : Index) (k k' : List Nat) (p : LogRecordPos) (h : k' ≠ k) :
    mapGet (mapInsert m k p) k' = mapGet m k' := by
  induction m with
  | nil => simp [mapInsert, mapGet, fun hEq => h hEq.symm ∘ Eq.symm, h.symm]
  | cons kv rest ih =>
    obtain ⟨k0, p0⟩ := kv
    by_cases h0 : k0 = k
    · subst h0
      simp [mapInsert, mapGet, h.symm]
    · simp only [mapInsert, if_neg h0, mapGet]
      by_cases h1 : k0 = k'
      · simp [h1]
      · simp [h1, ih]

theorem mapGet_none_of_not_mem (m : Index) (k : List Nat)
    (h : k ∉ m.map Prod.fst) : mapGet m k = none := by
  induction m with
  | nil => rfl
  | cons kv rest ih =>
    obtain ⟨k0, p0⟩ := kv
    simp only [List.map_cons, List.mem_cons] at h
    push_neg at h
    simp only [mapGet, if_neg (Ne.symm h.1)]
    exact ih h.2

theorem mapRemove_snd (m : Index) (k : List Nat) : (mapRemove m k).2 = mapGet m k := by
  induction m with
  | nil => rfl
  | cons kv rest ih =>
    obtain ⟨k0, p0⟩ := kv
    by_cases h : k0 = k
    · simp [mapRemove, mapGet, h]
    · simp only [mapRemove, if_neg h, mapGet, ih]

theorem mapGet_remove_ne (m : Index) (k k' : List Nat) (h : k' ≠ k) :
    mapGet (mapRemove m k).1 k' = mapGet m k' := by
  induction m with
  | nil => rfl
  | cons kv rest ih =>
    obtain ⟨k0, p0⟩ := kv
    by_cases h0 : k0 = k
    · subst h0
      simp [mapRemove, mapGet, h.symm]
    · simp only [mapRemove, if_neg h0]
      by_cases h1 : k0 = k'
      · simp [mapGet, h1]
      · simp [mapGet, h1, ih]

theorem mapGet_remove_self (m : Index) (k : List Nat)
    (hnd : (m.map Prod.fst).Nodup) : mapGet (mapRemove m k).1 k = none := by
  induction m with
  | nil => rfl
  | cons kv rest ih =>
    obtain ⟨k0, p0⟩ := kv
    simp only [List.map_cons, List.nodup_cons] at hnd
    by_cases h : k0 = k
    · subst h
      simp only [mapRemove, if_pos rfl]
      exact mapGet_none_of_not_mem rest k0 hnd.1
    · simp only [mapRemove, if_neg h, mapGet, if_neg h]
      exact ih hnd.2

theorem mem_keys_insert (m : Index) (k k' : List Nat) (p : LogRecordPos) :
    k' ∈ (mapInsert m k p).map Prod.fst ↔ k' = k ∨ k' ∈ m.map Prod.fst := by
  induction m with
  | nil => simp [mapInsert]
  | cons kv rest ih =>
    obtain ⟨k0, p0⟩ := kv
    by_cases h : k0 = k
    · subst h
      simp [mapInsert]
    · simp only [mapInsert, if_neg h, List.map_cons, List.mem_cons, ih]
      tauto

theorem nodup_keys_insert (m : Index) (k : List Nat) (p : LogRecordPos)
    (h : (m.map Prod.fst).Nodup) : ((mapInsert m k p).map Prod.fst).Nodup := by
  induction m with
  | nil => simp [mapInsert]
  | cons kv rest ih =>
    obtain ⟨k0, p0⟩ := kv
    simp only [List.map_cons, List.nodup_cons] at h
    by_cases h0 : k0 = k
    · subst h0
      rw [show mapInsert ((k0, p0) :: rest) k0 p = (k0, p) :: rest from by
        simp [mapInsert]]
      simp only [List.map_cons, List.nodup_cons]
      exact ⟨h.1, h.2⟩
    · simp only [mapInsert, if_neg h0, List.map_cons, List.nodup_cons]
      refine ⟨?_, ih h.2⟩
      rw [mem_keys_insert]
      push_neg
      exact ⟨h0, h.1⟩

theorem keys_remove_sublist (m : Index) (k : List Nat) :
    ((mapRemove m k).1.map Prod.fst).Sublist (m.map Prod.fst) := by
  induction m with
  | nil => simp [mapRemove]
  | cons kv rest ih =>
    obtain ⟨k0, p0⟩ := kv
    by_cases h : k0 = k
    · simp only [mapRemove, if_pos h, List.map_cons]
      exact List.sublist_cons_of_sublist k0 (List.Sublist.refl _)
    · simp only [mapRemove, if_neg h, List.map_cons]
      exact List.Sublist.cons₂ k0 ih

theorem nodup_keys_remove (m : Index) (k : List Nat)
    (h : (m.map Prod.fst).Nodup) : ((mapRemove m k).1.map Prod.fst).Nodup :=
  h.sublist (keys_remove_sublist m k)

/-! ## Engine append and read lemmas -/

theorem mapGetFile_mem (l : List (Nat × List Nat)) (fid : Nat) (d : List Nat)
    (h : mapGetFile l fid = some d) : (fid, d) ∈ l := by
  induction l with
  | nil => simp [mapGetFile] at h
  | cons p rest ih =>
    obtain ⟨id0, d0⟩ := p
    simp only [mapGetFile] at h
    split at h
    · next heq =>
      injection h with h2
      subst heq
      subst h2
      exact List.mem_cons_self _ _
    · next hne =>
      exact List.mem_cons_of_mem _ (ih h)

theorem getValueByPosition_eq (e : Engine) (pos : LogRecordPos) :
    e.getValueByPosition pos =
      (match e.fileData pos.file_id with
       | none => .err .dataFileNotFound
       | some data =>
         match readLogRecord data pos.offset with
         | .ok (record, _) =>
           match record.record_type with
           | .NORMAL => .ok record.value
           | .DELETE => .err .keyNotFound
           | .TXNFINISHED => .crash
         | .err e0 => .err e0
         | .crash => .crash) := by
  unfold Engine.getValueByPosition Engine.fileData
  by_cases h : pos.file_id = e.active_id
  · simp [h]
  · simp only [if_neg h]
    cases mapGetFile e.older_files pos.file_id <;> rfl

/-- Reading a position known to hold a well-formed record dispatches
purely on the record's type. -/
theorem getValue_hasRecord (e : Engine) (pos : LogRecordPos) (r : LogRecord)
    (hr : FileHasRecord e pos r) (hwf : WFRecord r) :
    e.getValueByPosition pos =
      (match r.record_type with
       | .NORMAL => .ok r.value
       | .DELETE => .err .keyNotFound
       | .TXNFINISHED => .crash) := by
  obtain ⟨pre, suf, hdata, hlen⟩ := hr
  rw [getValueByPosition_eq, hdata]
  dsimp only
  rw [← hlen, readLogRecord_encode pre suf r hwf]

/-- `append_log_record`: preserves well-formedness, leaves index,
sequence number and configuration untouched, produces a readable copy
of the record at the returned position, and keeps every previously
written record readable. -/
theorem appendLogRecord_spec (e : Engine) (r : LogRecord) (hwf : EngineWF e) :
    EngineWF (e.appendLogRecord r).1 ∧
      (e.appendLogRecord r).1.index = e.index ∧
      (e.appendLogRecord r).1.seq_num = e.seq_num ∧
      (e.appendLogRecord r).1.data_file_size = e.data_file_size ∧
      (e.appendLogRecord r).1.sync_write = e.sync_write ∧
      FileHasRecord (e.appendLogRecord r).1 (e.appendLogRecord r).2 r ∧
      (∀ pos0 r0, FileHasRecord e pos0 r0 → FileHasRecord (e.appendLogRecord r).1 pos0 r0) := by
  obtain ⟨hoff, holder, hnd⟩ := hwf
  unfold Engine.appendLogRecord
  by_cases hroll : e.active_offset + r.encode.length > e.data_file_size
  · simp only [if_pos hroll]
    refine ⟨⟨by simp, ?_, hnd⟩, by simp, by simp, by simp, by simp, ?_, ?_⟩
    · intro p hp
      simp only [List.mem_cons] at hp
      rcases hp with hp | hp
      · subst hp
        simp
      · have := holder p hp
        simp only
        omega
    · refine ⟨[], [], ?_, rfl⟩
      simp [Engine.fileData]
    · rintro pos0 r0 ⟨pre, suf, hdata, hlen⟩
      refine ⟨pre, suf, ?_, hlen⟩
      unfold Engine.fileData at hdata ⊢
      by_cases hfid : pos0.file_id = e.active_id
      · rw [if_pos hfid] at hdata
        rw [if_neg (by simp only; omega)]
        simp only [mapGetFile, hfid, if_pos rfl]
        exact hdata
      · rw [if_neg hfid] at hdata
        have hmem := mapGetFile_mem _ _ _ hdata
        have hlt := holder _ hmem
        simp only at hlt
        rw [if_neg (by simp only; omega)]
        simp only [mapGetFile]
        rw [if_neg (by omega : ¬ e.active_id = pos0.file_id)]
        exact hdata
  · simp only [if_neg hroll]
    refine ⟨⟨by simp [hoff], holder, hnd⟩, by simp, by simp, by simp, by simp, ?_, ?_⟩
    · refine ⟨e.active_data, [], ?_, hoff.symm⟩
      simp [Engine.fileData]
    · rintro pos0 r0 ⟨pre, suf, hdata, hlen⟩
      unfold Engine.fileData at hdata
      by_cases hfid : pos0.file_id = e.active_id
      · rw [if_pos hfid] at hdata
        refine ⟨pre, suf ++ r.encode, ?_, hlen⟩
        unfold Engine.fileData
        rw [if_pos (by simpa using hfid)]
        simp only [Option.some.injEq] at hdata ⊢
        rw [hdata]
        simp [List.append_assoc]
      · rw [if_neg hfid] at hdata
        refine ⟨pre, suf, ?_, hlen⟩
        unfold Engine.fileData
        rw [if_neg (by simpa using hfid)]
        exact hdata

/-! ## Engine operation shapes -/

theorem appendLogRecord_index (e : Engine) (r : LogRecord) :
    (e.appendLogRecord r).1.index = e.index := by
  unfold Engine.appendLogRecord
  dsimp only
  split <;> rfl

theorem appendLogRecord_seq_num (e : Engine) (r : LogRecord) :
    (e.appendLogRecord r).1.seq_num = e.seq_num := by
  unfold Engine.appendLogRecord
  dsimp only
  split <;> rfl

theorem put_eq (e : Engine) (k v : List Nat) (hk : k ≠ []) :
    e.put k v = .ok { (e.appendLogRecord
        ⟨logRecordKeyWithSeqNum k NON_TRANSACTION_SEQ_NUM, v, .NORMAL⟩).1 with
      index := mapInsert (e.appendLogRecord
        ⟨logRecordKeyWithSeqNum k NON_TRANSACTION_SEQ_NUM, v, .NORMAL⟩).1.index k
        (e.appendLogRecord
          ⟨logRecordKeyWithSeqNum k NON_TRANSACTION_SEQ_NUM, v, .NORMAL⟩).2 } := by
  unfold Engine.put
  rw [if_neg hk]
  rfl

theorem put_empty (e : Engine) (v : List Nat) : e.put [] v = .err .keyIsEmpty := rfl

theorem delete_empty (e : Engine) : e.delete [] = .err .keyIsEmpty := rfl

theorem get_empty (e : Engine) : e.get [] = .err .keyIsEmpty := rfl

theorem get_eq_of_none (e : Engine) (k : List Nat) (hk : k ≠ [])
    (h : mapGet e.index k = none) : e.get k = .err .keyNotFound := by
  unfold Engine.get btreeGet
  rw [if_neg hk, h]

theorem get_eq_of_some (e : Engine) (k : List Nat) (p : LogRecordPos) (hk : k ≠ [])
    (h : mapGet e.index k = some p) : e.get k = e.getValueByPosition p := by
  unfold Engine.get btreeGet
  rw [if_neg hk, h]

theorem delete_eq_none (e : Engine) (k : List Nat) (hk : k ≠ [])
    (h : mapGet e.index k = none) : e.delete k = .ok e := by
  unfold Engine.delete btreeGet
  rw [if_neg hk, h]

theorem delete_eq_some (e : Engine) (k : List Nat) (p : LogRecordPos) (hk : k ≠ [])
    (h : mapGet e.index k = some p) :
    e.delete k = .ok { (e.appendLogRecord
        ⟨logRecordKeyWithSeqNum k NON_TRANSACTION_SEQ_NUM, [], .DELETE⟩).1 with
      index := (mapRemove (e.appendLogRecord
        ⟨logRecordKeyWithSeqNum k NON_TRANSACTION_SEQ_NUM, [], .DELETE⟩).1.index k).1 } := by
  unfold Engine.delete btreeGet
  rw [if_neg hk, h]
  have hsome : (mapRemove (e.appendLogRecord
      ⟨logRecordKeyWithSeqNum k NON_TRANSACTION_SEQ_NUM, [], .DELETE⟩).1.index k).2.isSome =
      true := by
    rw [mapRemove_snd, appendLogRecord_index, h]
    rfl
  dsimp only [btreeDelete]
  rw [hsome, if_pos rfl]

/-! ## Put / delete specifications -/

theorem wf_framed (k v : List Nat) (seq : Nat) (t : LogRecordType)
    (hg : GoodKV k v) (hseq : seq < 2 ^ 32) :
    WFRecord ⟨logRecordKeyWithSeqNum k seq, v, t⟩ := by
  obtain ⟨hk, hk5, hv5, hkb, hvb⟩ := hg
  have hlen5 : (encodeVarint seq).length ≤ 5 := encodeVarint_length_le seq hseq
  have hseq128 : seq < 128 ^ 10 := by
    calc seq < 2 ^ 32 := hseq
      _ ≤ 128 ^ 10 := by norm_num
  refine ⟨?_, ?_, hv5, ?_, hvb⟩
  · simp only [logRecordKeyWithSeqNum, ne_eq, List.append_eq_nil]
    intro hno
    exact encodeVarint_ne_nil seq hno.1
  · simp only [logRecordKeyWithSeqNum, List.length_append]
    omega
  · intro b hb
    simp only [logRecordKeyWithSeqNum, List.mem_append] at hb
    rcases hb with hb | hb
    · exact encodeVarint_bytes_lt seq hseq128 b hb
    · exact hkb b hb

/-- `Engine::put` on a well-formed engine: succeeds, the new engine is
well-formed, `get` of the key returns the value just written, the
sequence counter is untouched, and other keys' index entries are
unchanged. -/
theorem put_spec (e : Engine) (k v : List Nat) (hwf : EngineWF e) (hg : GoodKV k v) :
    ∃ e1, e.put k v = .ok e1 ∧ EngineWF e1 ∧ e1.get k = .ok v ∧
      e1.seq_num = e.seq_num ∧
      (∀ k', k' ≠ k → mapGet e1.index k' = mapGet e.index k') := by
  have hk := hg.1
  obtain ⟨hwf1, hidx, hseq, _, _, hhas, _⟩ := appendLogRecord_spec e
    ⟨logRecordKeyWithSeqNum k NON_TRANSACTION_SEQ_NUM, v, .NORMAL⟩ hwf
  refine ⟨_, put_eq e k v hk, ⟨hwf1.1, hwf1.2.1, nodup_keys_insert _ _ _ hwf1.2.2⟩, ?_, ?_, ?_⟩
  · rw [get_eq_of_some _ k _ hk (mapGet_insert_self _ _ _)]
    have hwfr : WFRecord ⟨logRecordKeyWithSeqNum k NON_TRANSACTION_SEQ_NUM, v, .NORMAL⟩ :=
      wf_framed k v NON_TRANSACTION_SEQ_NUM .NORMAL hg (by norm_num [NON_TRANSACTION_SEQ_NUM])
    exact getValue_hasRecord _ _ _ hhas hwfr
  · exact hseq
  · intro k' hk'
    rw [show ({ (e.appendLogRecord
          ⟨logRecordKeyWithSeqNum k NON_TRANSACTION_SEQ_NUM, v, .NORMAL⟩).1 with
        index := mapInsert (e.appendLogRecord
          ⟨logRecordKeyWithSeqNum k NON_TRANSACTION_SEQ_NUM, v, .NORMAL⟩).1.index k
          (e.appendLogRecord
            ⟨logRecordKeyWithSeqNum k NON_TRANSACTION_SEQ_NUM, v, .NORMAL⟩).2 } : Engine).index =
      mapInsert (e.appendLogRecord
        ⟨logRecordKeyWithSeqNum k NON_TRANSACTION_SEQ_NUM, v, .NORMAL⟩).1.index k
        (e.appendLogRecord
          ⟨logRecordKeyWithSeqNum k NON_TRANSACTION_SEQ_NUM, v, .NORMAL⟩).2 from rfl]
    rw [mapGet_insert_ne _ _ _ _ hk', hidx]

/-- `Engine::delete` on a well-formed engine: succeeds, the new engine
is well-formed, the key's index entry is gone, other keys' entries and
the sequence counter are unchanged. -/
theorem delete_spec (e : Engine) (k : List Nat) (hwf : EngineWF e) (hk : k ≠ []) :
    ∃ e2, e.delete k = .ok e2 ∧ EngineWF e2 ∧ mapGet e2.index k = none ∧
      (∀ k', k' ≠ k → mapGet e2.index k' = mapGet e.index k') ∧
      e2.seq_num = e.seq_num := by
  cases hidx : mapGet e.index k with
  | none => exact ⟨e, delete_eq_none e k hk hidx, hwf, hidx, fun k' _ => rfl, rfl⟩
  | some p =>
    obtain ⟨hwf1, hidxp, hseq, _, _, _, _⟩ := appendLogRecord_spec e
      ⟨logRecordKeyWithSeqNum k NON_TRANSACTION_SEQ_NUM, [], .DELETE⟩ hwf
    refine ⟨_, delete_eq_some e k p hk hidx,
      ⟨hwf1.1, hwf1.2.1, nodup_keys_remove _ _ hwf1.2.2⟩, ?_, ?_, hseq⟩
    · exact mapGet_remove_self _ k hwf1.2.2
    · intro k' hk'
      rw [show ({ (e.appendLogRecord
            ⟨logRecordKeyWithSeqNum k NON_TRANSACTION_SEQ_NUM, [], .DELETE⟩).1 with
          index := (mapRemove (e.appendLogRecord
            ⟨logRecordKeyWithSeqNum k NON_TRANSACTION_SEQ_NUM, [], .DELETE⟩).1.index k).1 } :
          Engine).index =
        (mapRemove (e.appendLogRecord
          ⟨logRecordKeyWithSeqNum k NON_TRANSACTION_SEQ_NUM, [], .DELETE⟩).1.index k).1 from rfl]
      rw [mapGet_remove_ne _ _ _ hk', hidxp]

/-- One engine operation that is not a `put` of key `k` keeps the
engine well-formed and keeps `k` absent from the index. -/
theorem applyOp_wf_none (e : Engine) (op : EngOp) (k : List Nat)
    (hwf : EngineWF e) (hnone : mapGet e.index k = none) (hop : ∀ v, op ≠ .put k v) :
    EngineWF (applyOp e op) ∧ mapGet (applyOp e op).index k = none := by
  cases op with
  | put k2 v2 =>
    by_cases hk2 : k2 = []
    · subst hk2
      unfold applyOp
      dsimp only
      rw [put_empty]
      exact ⟨hwf, hnone⟩
    · have hne : k2 ≠ k := by
        intro hEq
        exact hop v2 (by rw [hEq])
      obtain ⟨hwf1, hidx, _, _, _, _, _⟩ := appendLogRecord_spec e
        ⟨logRecordKeyWithSeqNum k2 NON_TRANSACTION_SEQ_NUM, v2, .NORMAL⟩ hwf
      unfold applyOp
      dsimp only
      rw [put_eq e k2 v2 hk2]
      refine ⟨⟨hwf1.1, hwf1.2.1, nodup_keys_insert _ _ _ hwf1.2.2⟩, ?_⟩
      show mapGet (mapInsert _ k2 _) k = none
      rw [mapGet_insert_ne _ _ _ _ (Ne.symm hne), hidx]
      exact hnone
  | del k2 =>
    by_cases hk2 : k2 = []
    · subst hk2
      unfold applyOp
      dsimp only
      rw [delete_empty]
      exact ⟨hwf, hnone⟩
    · cases hidx : mapGet e.index k2 with
      | none =>
        unfold applyOp
        dsimp only
        rw [delete_eq_none e k2 hk2 hidx]
        exact ⟨hwf, hnone⟩
      | some p =>
        have hne : k2 ≠ k := by
          intro hEq
          subst hEq
          rw [hidx] at hnone
          cases hnone
        obtain ⟨hwf1, hidxp, _, _, _, _, _⟩ := appendLogRecord_spec e
          ⟨logRecordKeyWithSeqNum k2 NON_TRANSACTION_SEQ_NUM, [], .DELETE⟩ hwf
        unfold applyOp
        dsimp only
        rw [delete_eq_some e k2 p hk2 hidx]
        refine ⟨⟨hwf1.1, hwf1.2.1, nodup_keys_remove _ _ hwf1.2.2⟩, ?_⟩
        show mapGet (mapRemove _ k2).1 k = none
        rw [mapGet_remove_ne _ _ _ (Ne.symm hne), hidxp]
        exact hnone

theorem applyOps_wf_none (ops : List EngOp) : ∀ (e : Engine) (k : List Nat),
    EngineWF e → mapGet e.index k = none → (∀ op ∈ ops, ∀ v, op ≠ .put k v) →
    EngineWF (applyOps e ops) ∧ mapGet (applyOps e ops).index k = none := by
  induction ops with
  | nil =>
    intro e k hwf hnone _
    exact ⟨hwf, hnone⟩
  | cons op rest ih =>
    intro e k hwf hnone hops
    have hstep := applyOp_wf_none e op k hwf hnone
      (hops op (List.mem_cons_self _ _))
    exact ih (applyOp e op) k hstep.1 hstep.2
      (fun op2 h2 => hops op2 (List.mem_cons_of_mem _ h2))

/-- C9: for every non-empty key and value accepted by the write path,
`put(k, v)` followed by `get(k)` returns `v`; and after `delete(k)`
returns, `get(k)` stays `KEY_NOT_FOUND` across any further operations
that are not a `put` of `k`. -/
theorem c9_put_get_delete_tombstone :
    (∀ (e : Engine) (k v : List Nat) (e1 : Engine), EngineWF e → GoodKV k v →
      e.put k v = .ok e1 → e1.get k = .ok v) ∧
    (∀ (e : Engine) (k : List Nat) (e2 : Engine) (ops : List EngOp), EngineWF e → k ≠ [] →
      e.delete k = .ok e2 → (∀ op ∈ ops, ∀ v, op ≠ EngOp.put k v) →
      (applyOps e2 ops).get k = .err .keyNotFound) := by
  constructor
  · intro e k v e1 hwf hg hput
    obtain ⟨e1x, hputx, _, hget, _, _⟩ := put_spec e k v hwf hg
    rw [hputx] at hput
    injection hput with h
    rw [← h]
    exact hget
  · intro e k e2 ops hwf hk hdel hops
    obtain ⟨e2x, hdelx, hwf2, hnone, _, _⟩ := delete_spec e k hwf hk
    rw [hdelx] at hdel
    injection hdel with h
    subst h
    obtain ⟨hwfF, hnoneF⟩ := applyOps_wf_none ops e2x k hwf2 hnone hops
    exact get_eq_of_none _ k hk hnoneF

/-- Witness for C9: the concrete put/get round trip and the tombstone
surviving an unrelated later put. -/
theorem c9_put_get_delete_tombstone_witness :
    c9AfterPut.get [97] = .ok [49] ∧
      (applyOps c9AfterDel [EngOp.put [98] [50]]).get [97] = .err .keyNotFound := by
  constructor
  · exact c9_put_get_delete_tombstone.1 c9Base [97] [49] c9AfterPut
      ⟨by decide, by decide, by decide⟩
      ⟨by decide, by decide, by decide, by decide, by decide⟩ (by decide)
  · refine c9_put_get_delete_tombstone.2 c9AfterPut [97] c9AfterDel [EngOp.put [98] [50]]
      ⟨by decide, by decide, by decide⟩ (by decide) (by decide) ?_
    intro op hop v
    simp only [List.mem_singleton] at hop
    subst hop
    intro hEq
    cases hEq

/-- C5 counterexample: on an empty index the key `[97]` has no previous
entry, yet `BTree::put` returns `true` (the claim requires `false` for
a fresh key). -/
theorem c5_counterexample :
    mapGet ([] : Index) [97] = none ∧
      (btreePut [] [97] ⟨1, 10⟩).2 = true := ⟨rfl, rfl⟩

/-- C5 (amended): `put(key, location)` inserts or replaces the entry
for the key and returns `true` unconditionally — the Boolean does not
report whether an entry previously existed. -/
theorem c5_put_inserts_returns_true (idx : Index) (k k' : List Nat) (p : LogRecordPos) :
    mapGet (btreePut idx k p).1 k = some p ∧ (btreePut idx k p).2 = true ∧
      (k' ≠ k → mapGet (btreePut idx k p).1 k' = mapGet idx k') :=
  ⟨mapGet_insert_self idx k p, rfl, fun h => mapGet_insert_ne idx k k' p h⟩

/-- Witness for the amended C5 on a one-entry index. -/
theorem c5_put_inserts_returns_true_witness :
    mapGet (btreePut [([97], ⟨0, 0⟩)] [98] ⟨1, 5⟩).1 [98] = some ⟨1, 5⟩ ∧
      (btreePut [([97], ⟨0, 0⟩)] [98] ⟨1, 5⟩).2 = true ∧
      mapGet (btreePut [([97], ⟨0, 0⟩)] [98] ⟨1, 5⟩).1 [97] = mapGet [([97], ⟨0, 0⟩)] [97] :=
  ⟨(c5_put_inserts_returns_true [([97], ⟨0, 0⟩)] [98] [97] ⟨1, 5⟩).1,
   (c5_put_inserts_returns_true [([97], ⟨0, 0⟩)] [98] [97] ⟨1, 5⟩).2.1,
   (c5_put_inserts_returns_true [([97], ⟨0, 0⟩)] [98] [97] ⟨1, 5⟩).2.2 (by decide)⟩

/-- C6 counterexample: with the index entry pointing at a DELETE
record, `Iterator::next` panics (the `expect` on
`get_value_by_position`) instead of skipping the entry. -/
theorem c6_counterexample : c6DelEngine.iterNext c6DelIter = .crash := by decide

/-- C6 (amended): on `next` the iterator reads the value at the
index-provided location; if that record is a DELETE tombstone the call
panics (it is not skipped), and only a NORMAL record yields a pair. -/
theorem c6_iter_next_no_skip (e : Engine) (it : BTreeIterator) (key : List Nat)
    (pos : LogRecordPos) (it1 : BTreeIterator) (d : List Nat) (r : LogRecord) (sz : Nat)
    (hnext : it.next = some ((key, pos), it1))
    (hd : e.fileData pos.file_id = some d)
    (hread : readLogRecord d pos.offset = .ok (r, sz)) :
    (r.record_type = .DELETE → e.iterNext it = .crash) ∧
      (r.record_type = .NORMAL → e.iterNext it = .yield key r.value it1) := by
  have hval : e.getValueByPosition pos =
      (match r.record_type with
       | .NORMAL => .ok r.value
       | .DELETE => .err .keyNotFound
       | .TXNFINISHED => .crash) := by
    rw [getValueByPosition_eq, hd]
    dsimp only
    rw [hread]
  constructor
  · intro ht
    unfold Engine.iterNext
    rw [hnext]
    dsimp only
    rw [hval, ht]
  · intro ht
    unfold Engine.iterNext
    rw [hnext]
    dsimp only
    rw [hval, ht]

/-- Witness for the amended C6: the DELETE case panics and the NORMAL
case yields, at concrete engines. -/
theorem c6_iter_next_no_skip_witness :
    c6DelEngine.iterNext c6DelIter = .crash ∧
      c6NormalEngine.iterNext c6DelIter =
        .yield [97] [119] { c6DelIter with curr_index := 1 } := by
  constructor
  · exact (c6_iter_next_no_skip c6DelEngine c6DelIter [97] ⟨0, 0⟩
      { c6DelIter with curr_index := 1 } c6DelEngine.active_data
      (LogRecord.mk [0, 97] [] .DELETE) 9
      (by decide) (by decide) (by decide)).1 (by decide)
  · exact (c6_iter_next_no_skip c6NormalEngine c6DelIter [97] ⟨0, 0⟩
      { c6DelIter with curr_index := 1 } c6NormalEngine.active_data
      (LogRecord.mk [0, 97] [119] .NORMAL) 10
      (by decide) (by decide) (by decide)).2 (by decide)

/-- C1 (code bug): opening a directory with data files 0 and 1 leaves
`file_ids = [1, 0]` — the recovery scan visits the files in descending
id order, because `open` collects the ids only after reversing the
ascending-sorted file list.  The claim (and §4.5.3 of the spec)
requires ascending order `[0, 1]`. -/
theorem c1_descending_scan_order :
    resultFileIds (Engine.open demoOpts demoTwoFiles) = some [1, 0] ∧
      some [1, 0] ≠ some [0, 1] := by
  constructor
  · decide
  · decide

/-- C2 (code bug): after a restart over two files in which key `[97]`
was last written in file 1 (value `"new"`), recovery leaves the index
pointing at the *older* record `(file 0, offset 0)` and `get` returns
the stale value `"old"` — the descending replay order makes the oldest
committed record win across files, violating the greatest
`(file_id, offset)` invariant. -/
theorem c2_stale_index_after_rollover_restart :
    resultIndexGet (Engine.open demoOpts demoTwoFiles) [97] =
        some { file_id := 0, offset := 0 } ∧
      resultGet (Engine.open demoOpts demoTwoFiles) [97] = .ok [111, 108, 100] ∧
      .ok [111, 108, 100] ≠ (DbResult.ok [110, 101, 119] : DbResult (List Nat)) := by
  refine ⟨by decide, by decide, by decide⟩

/-- C3 counterexample: after committing two two-key batches and
re-opening, the engine's sequence counter reads 2 (the maximum
sequence number found on disk), not ≥ 3 as the claim states. -/
theorem c3_counter_reads_two :
    resultSeqNum c3Reopened = some 2 ∧
      ∀ n, resultSeqNum c3Reopened = some n → ¬ 3 ≤ n := by
  have h : resultSeqNum c3Reopened = some 2 := by decide
  refine ⟨h, ?_⟩
  intro n hn
  rw [h] at hn
  injection hn with hn
  omega

/-- C3 (amended): after committing two batches of two keys each and
restarting, all four keys are present with their committed values, and
the sequence counter reads exactly 2 — the largest sequence number
seen during recovery (`max_seq_num`), not `max_seq_num + 1`. -/
theorem c3_batches_restart_keys_present :
    resultGet c3Reopened [97] = .ok [49] ∧
      resultGet c3Reopened [98] = .ok [50] ∧
      resultGet c3Reopened [99] = .ok [51] ∧
      resultGet c3Reopened [100] = .ok [52] ∧
      resultSeqNum c3Reopened = some 2 := by
  refine ⟨by decide, by decide, by decide, by decide, by decide⟩

/-! ## Recovery replay lemmas -/

theorem batchGet_remove_self (bs : List (Nat × List TransactionRecord)) (s : Nat) :
    batchGet (batchRemove bs s) s = none := by
  induction bs with
  | nil => rfl
  | cons p rest ih =>
    obtain ⟨s0, rs0⟩ := p
    by_cases h : s0 = s
    · simpa [batchRemove, h] using ih
    · simpa [batchRemove, batchGet, h] using ih

theorem batchGet_remove_ne (bs : List (Nat × List TransactionRecord)) (s s2 : Nat)
    (h : s ≠ s2) : batchGet (batchRemove bs s2) s = batchGet bs s := by
  induction bs with
  | nil => rfl
  | cons p rest ih =>
    obtain ⟨s0, rs0⟩ := p
    by_cases h0 : s0 = s2
    · subst h0
      rw [show batchRemove ((s0, rs0) :: rest) s0 = batchRemove rest s0 from by
        simp [batchRemove]]
      rw [ih]
      simp only [batchGet]
      rw [if_neg (by omega : ¬ s0 = s)]
    · by_cases h1 : s0 = s
      · subst h1
        simp [batchRemove, batchGet, h0]
      · simp [batchRemove, batchGet, h0, h1, ih]

theorem batchGet_push_ne (bs : List (Nat × List TransactionRecord)) (s s2 : Nat)
    (tr : TransactionRecord) (h : s ≠ s2) :
    batchGet (batchPush bs s2 tr) s = batchGet bs s := by
  induction bs with
  | nil =>
    simp only [batchPush, batchGet]
    rw [if_neg (by omega : ¬ s2 = s)]
  | cons p rest ih =>
    obtain ⟨s0, rs0⟩ := p
    by_cases h0 : s0 = s2
    · subst h0
      rw [show batchPush ((s0, rs0) :: rest) s0 tr = (s0, rs0 ++ [tr]) :: rest from by
        simp [batchPush]]
      simp only [batchGet]
      rw [if_neg (by omega : ¬ s0 = s), if_neg (by omega : ¬ s0 = s)]
    · by_cases h1 : s0 = s
      · subst h1
        simp [batchPush, batchGet, h0]
      · simp [batchPush, batchGet, h0, h1, ih]

theorem batchGet_push_self (bs : List (Nat × List TransactionRecord)) (s : Nat)
    (tr : TransactionRecord) : batchGet (batchPush bs s tr) s ≠ none := by
  induction bs with
  | nil => simp [batchPush, batchGet]
  | cons p rest ih =>
    obtain ⟨s0, rs0⟩ := p
    by_cases h0 : s0 = s
    · subst h0
      simp [batchPush, batchGet]
    · simpa [batchPush, batchGet, h0] using ih

theorem replayStep_parse_none (st : RecState) (record : LogRecord) (pos : LogRecordPos)
    (hparse : parseLogRecordKey record.key = none) :
    replayStep st (record, pos) = none := by
  unfold replayStep
  dsimp only
  rw [hparse]

theorem replayStep_eq (st : RecState) (record : LogRecord) (pos : LogRecordPos)
    (key : List Nat) (seqNum : Nat)
    (hparse : parseLogRecordKey record.key = some (key, seqNum)) :
    replayStep st (record, pos) =
      (match (if seqNum = NON_TRANSACTION_SEQ_NUM then
          some { st with index := updateIndex st.index key record.record_type pos }
        else if record.record_type = .TXNFINISHED then
          match batchGet st.txnBatches seqNum with
          | none => none
          | some records =>
            some { st with
              index := records.foldl
                (fun ix tr => updateIndex ix tr.record.key tr.record.record_type tr.pos)
                st.index
              txnBatches := batchRemove st.txnBatches seqNum }
        else
          some { st with
              txnBatches := batchPush st.txnBatches seqNum
                (TransactionRecord.mk { record with key := key } pos) }) with
      | none => none
      | some st1 => some { st1 with
          currentSeqNum := if seqNum > st1.currentSeqNum then seqNum else st1.currentSeqNum }) := by
  unfold replayStep
  dsimp only
  rw [hparse]

/-- A step on a record whose sequence number is not `s` cannot create
a buffered bucket for `s`. -/
theorem replayStep_none_preserved (st st1 : RecState) (record : LogRecord)
    (pos : LogRecordPos) (s : Nat)
    (hstep : replayStep st (record, pos) = some st1)
    (hseq : seqOfRecord record ≠ some s)
    (hnone : batchGet st.txnBatches s = none) :
    batchGet st1.txnBatches s = none := by
  cases hparse : parseLogRecordKey record.key with
  | none =>
    rw [replayStep_parse_none st record pos hparse] at hstep
    cases hstep
  | some kv =>
    obtain ⟨key, seqNum⟩ := kv
    rw [replayStep_eq st record pos key seqNum hparse] at hstep
    have hsne : seqNum ≠ s := by
      intro hEq
      exact hseq (by simp [seqOfRecord, hparse, hEq])
    by_cases h0 : seqNum = NON_TRANSACTION_SEQ_NUM
    · rw [if_pos h0] at hstep
      dsimp only at hstep
      injection hstep with h1
      subst h1
      exact hnone
    · rw [if_neg h0] at hstep
      by_cases hm : record.record_type = .TXNFINISHED
      · rw [if_pos hm] at hstep
        cases hbg : batchGet st.txnBatches seqNum with
        | none =>
          rw [hbg] at hstep
          cases hstep
        | some records =>
          rw [hbg] at hstep
          dsimp only at hstep
          injection hstep with h1
          subst h1
          show batchGet (batchRemove st.txnBatches seqNum) s = none
          rw [batchGet_remove_ne _ _ _ (Ne.symm hsne)]
          exact hnone
      · rw [if_neg hm] at hstep
        dsimp only at hstep
        injection hstep with h1
        subst h1
        show batchGet (batchPush st.txnBatches seqNum _) s = none
        rw [batchGet_push_ne _ _ _ _ (Ne.symm hsne)]
        exact hnone

/-- A successful step can only have created bucket `s` from a
non-marker transactional record carrying sequence number `s`. -/
theorem replayStep_origin (st st1 : RecState) (record : LogRecord) (pos : LogRecordPos)
    (s : Nat) (hstep : replayStep st (record, pos) = some st1)
    (hne : batchGet st1.txnBatches s ≠ none) :
    batchGet st.txnBatches s ≠ none ∨
      (seqOfRecord record = some s ∧ record.record_type ≠ .TXNFINISHED) := by
  by_cases hst : batchGet st.txnBatches s = none
  · right
    cases hparse : parseLogRecordKey record.key with
    | none =>
      rw [replayStep_parse_none st record pos hparse] at hstep
      cases hstep
    | some kv =>
      obtain ⟨key, seqNum⟩ := kv
      rw [replayStep_eq st record pos key seqNum hparse] at hstep
      by_cases h0 : seqNum = NON_TRANSACTION_SEQ_NUM
      · rw [if_pos h0] at hstep
        dsimp only at hstep
        injection hstep with h1
        subst h1
        exact absurd hst hne
      · rw [if_neg h0] at hstep
        by_cases hm : record.record_type = .TXNFINISHED
        · rw [if_pos hm] at hstep
          cases hbg : batchGet st.txnBatches seqNum with
          | none =>
            rw [hbg] at hstep
            cases hstep
          | some records =>
            rw [hbg] at hstep
            dsimp only at hstep
            injection hstep with h1
            subst h1
            exfalso
            apply hne
            show batchGet (batchRemove st.txnBatches seqNum) s = none
            by_cases hss : s = seqNum
            · subst hss
              exact batchGet_remove_self _ _
            · rw [batchGet_remove_ne _ _ _ hss]
              exact hst
        · rw [if_neg hm] at hstep
          dsimp only at hstep
          injection hstep with h1
          subst h1
          have hbucket : batchGet (batchPush st.txnBatches seqNum
              { record := { record with key := key }, pos := pos }) s ≠ none := hne
          by_cases hss : s = seqNum
          · subst hss
            exact ⟨by simp [seqOfRecord, hparse], hm⟩
          · rw [batchGet_push_ne _ _ _ _ hss] at hbucket
            exact absurd hst hbucket
  · exact Or.inl hst

/-- A successful step on a `TXN_FINISHED` marker implies its bucket
was present. -/
theorem replayStep_marker_bucket (st st1 : RecState) (record : LogRecord)
    (pos : LogRecordPos) (s : Nat)
    (hstep : replayStep st (record, pos) = some st1)
    (hm : record.record_type = .TXNFINISHED)
    (hseq : seqOfRecord record = some s) (hs : s ≠ 0) :
    batchGet st.txnBatches s ≠ none := by
  cases hparse : parseLogRecordKey record.key with
  | none =>
    rw [replayStep_parse_none st record pos hparse] at hstep
    cases hstep
  | some kv =>
    obtain ⟨key, seqNum⟩ := kv
    have hsn : seqNum = s := by
      simp only [seqOfRecord, hparse] at hseq
      simpa using hseq
    subst hsn
    rw [replayStep_eq st record pos key seqNum hparse] at hstep
    rw [if_neg (by simpa [NON_TRANSACTION_SEQ_NUM] using hs), if_pos hm] at hstep
    cases hbg : batchGet st.txnBatches seqNum with
    | none =>
      rw [hbg] at hstep
      cases hstep
    | some records => simp

theorem replayList_append (l1 l2 : List (LogRecord × LogRecordPos)) (st : RecState) :
    replayList st (l1 ++ l2) =
      (match replayList st l1 with
       | some st1 => replayList st1 l2
       | none => none) := by
  induction l1 generalizing st with
  | nil => rfl
  | cons rp rest ih =>
    simp only [List.cons_append, replayList]
    cases replayStep st rp with
    | none => rfl
    | some st2 => exact ih st2

/-- Successful replay of a record list only builds bucket `s` out of a
non-marker record with sequence number `s` in the list. -/
theorem replay_bucket_origin (pre : List (LogRecord × LogRecordPos)) :
    ∀ (st st1 : RecState) (s : Nat), replayList st pre = some st1 →
      batchGet st1.txnBatches s ≠ none →
      batchGet st.txnBatches s ≠ none ∨
        ∃ rp ∈ pre, seqOfRecord rp.1 = some s ∧ rp.1.record_type ≠ .TXNFINISHED := by
  induction pre with
  | nil =>
    intro st st1 s hrep hne
    injection hrep with h1
    subst h1
    exact Or.inl hne
  | cons rp rest ih =>
    intro st st1 s hrep hne
    simp only [replayList] at hrep
    cases hstep : replayStep st rp with
    | none =>
      rw [hstep] at hrep
      cases hrep
    | some st2 =>
      rw [hstep] at hrep
      rcases ih st2 st1 s hrep hne with h2 | ⟨rp2, hmem, hrp2⟩
      · rcases replayStep_origin st st2 rp.1 rp.2 s hstep h2 with h3 | h3
        · exact Or.inl h3
        · exact Or.inr ⟨rp, List.mem_cons_self _ _, h3⟩
      · exact Or.inr ⟨rp2, List.mem_cons_of_mem _ hmem, hrp2⟩

/-- Replaying a log whose first record with sequence number `s` is the
`TXN_FINISHED` marker itself panics at the marker. -/
theorem replay_marker_no_bucket (pre : List (LogRecord × LogRecordPos)) :
    ∀ (st : RecState) (post : List (LogRecord × LogRecordPos)) (m : LogRecord)
      (mp : LogRecordPos) (s : Nat),
      m.record_type = .TXNFINISHED → seqOfRecord m = some s → s ≠ 0 →
      batchGet st.txnBatches s = none →
      (∀ rp ∈ pre, seqOfRecord rp.1 ≠ some s) →
      replayList st (pre ++ (m, mp) :: post) = none := by
  induction pre with
  | nil =>
    intro st post m mp s hm hseq hs hnone hpre
    simp only [List.nil_append, replayList]
    have hstep : replayStep st (m, mp) = none := by
      cases hparse : parseLogRecordKey m.key with
      | none => exact replayStep_parse_none st m mp hparse
      | some kv =>
        obtain ⟨key, seqNum⟩ := kv
        have hsn : seqNum = s := by
          simp only [seqOfRecord, hparse] at hseq
          simpa using hseq
        subst hsn
        rw [replayStep_eq st m mp key seqNum hparse]
        rw [if_neg (by simpa [NON_TRANSACTION_SEQ_NUM] using hs), if_pos hm, hnone]
    rw [hstep]
  | cons rp rest ih =>
    intro st post m mp s hm hseq hs hnone hpre
    simp only [List.cons_append, replayList]
    cases hstep : replayStep st rp with
    | none => rfl
    | some st2 =>
      exact ih st2 post m mp s hm hseq hs
        (replayStep_none_preserved st st2 rp.1 rp.2 s hstep
          (hpre rp (List.mem_cons_self _ _)) hnone)
        (fun rp2 h2 => hpre rp2 (List.mem_cons_of_mem _ h2))

/-- C10: during recovery, a `TXN_FINISHED` marker whose sequence number
has no buffered records panics (the `unwrap` on the missing map entry),
and a recovery that returns normally implies every marker was preceded
in the scan by at least one non-marker record of the same sequence
number. -/
theorem c10_txn_marker_panic :
    (∀ (pre post : List (LogRecord × LogRecordPos)) (m : LogRecord) (mp : LogRecordPos)
        (idx : Index) (s : Nat),
        m.record_type = .TXNFINISHED → seqOfRecord m = some s → s ≠ 0 →
        (∀ rp ∈ pre, seqOfRecord rp.1 ≠ some s) →
        replayList (initRecState idx) (pre ++ (m, mp) :: post) = none) ∧
    (∀ (idx : Index) (stF : RecState) (pre post : List (LogRecord × LogRecordPos))
        (m : LogRecord) (mp : LogRecordPos) (s : Nat),
        replayList (initRecState idx) (pre ++ (m, mp) :: post) = some stF →
        m.record_type = .TXNFINISHED → seqOfRecord m = some s → s ≠ 0 →
        ∃ rp ∈ pre, seqOfRecord rp.1 = some s ∧ rp.1.record_type ≠ .TXNFINISHED) := by
  constructor
  · intro pre post m mp idx s hm hseq hs hpre
    exact replay_marker_no_bucket pre (initRecState idx) post m mp s hm hseq hs rfl hpre
  · intro idx stF pre post m mp s hrep hm hseq hs
    rw [replayList_append] at hrep
    cases hpre : replayList (initRecState idx) pre with
    | none =>
      rw [hpre] at hrep
      cases hrep
    | some stp =>
      rw [hpre] at hrep
      simp only [replayList] at hrep
      cases hstep : replayStep stp (m, mp) with
      | none =>
        rw [hstep] at hrep
        cases hrep
      | some st2 =>
        have hbucket := replayStep_marker_bucket stp st2 m mp s hstep hm hseq hs
        rcases replay_bucket_origin pre (initRecState idx) stp s hpre hbucket with h | h
        · exact absurd rfl h
        · exact h

/-- Witness for C10: a lone marker of sequence 1 panics, and a
successful replay of record-then-marker exhibits the preceding
record. -/
theorem c10_txn_marker_panic_witness :
    replayList (initRecState []) [(c10Marker, ⟨0, 0⟩)] = none ∧
      ∃ rp ∈ [(c10Rec, (⟨0, 0⟩ : LogRecordPos))], seqOfRecord rp.1 = some 1 ∧
        rp.1.record_type ≠ .TXNFINISHED := by
  constructor
  · exact c10_txn_marker_panic.1 [] [] c10Marker ⟨0, 0⟩ [] 1 (by decide) (by decide)
      (by decide) (by intro rp h; exact absurd h (List.not_mem_nil rp))
  · exact c10_txn_marker_panic.2 [] c10St [(c10Rec, ⟨0, 0⟩)] [] c10Marker ⟨0, 12⟩ 1
      (by decide) (by decide) (by decide) (by decide)

/-! ## Write-batch commit lemmas -/

theorem commitAppends_nil (e : Engine) (seq : Nat) (positions : Index) :
    commitAppends e seq positions [] = (e, positions) := rfl

theorem commitAppends_cons (e : Engine) (seq : Nat) (positions : Index)
    (k0 : List Nat) (rec : LogRecord) (rest : PendingWrites) :
    commitAppends e seq positions ((k0, rec) :: rest) =
      commitAppends (e.appendLogRecord (framedRecord seq rec)).1 seq
        (mapInsert positions rec.key (e.appendLogRecord (framedRecord seq rec)).2) rest := rfl

/-- The append loop of `commit`: preserves well-formedness, the index,
the sequence counter and previously written records; records every
staged key's final position; and the recorded position of each staged
entry holds the framed record on disk. -/
theorem commitAppends_spec (pending : PendingWrites) :
    ∀ (e : Engine) (seq : Nat) (positions : Index),
      EngineWF e →
      (∀ p ∈ pending, p.2.key = p.1) →
      (pending.map Prod.fst).Nodup →
      EngineWF (commitAppends e seq positions pending).1 ∧
      (commitAppends e seq positions pending).1.index = e.index ∧
      (commitAppends e seq positions pending).1.seq_num = e.seq_num ∧
      (∀ pos0 r0, FileHasRecord e pos0 r0 →
        FileHasRecord (commitAppends e seq positions pending).1 pos0 r0) ∧
      (∀ k, (∀ p ∈ pending, p.1 ≠ k) →
        mapGet (commitAppends e seq positions pending).2 k = mapGet positions k) ∧
      (∀ p ∈ pending, ∃ pos,
        mapGet (commitAppends e seq positions pending).2 p.1 = some pos ∧
        FileHasRecord (commitAppends e seq positions pending).1 pos (framedRecord seq p.2)) := by
  induction pending with
  | nil =>
    intro e seq positions hwf _ _
    exact ⟨hwf, rfl, rfl, fun _ _ h => h, fun _ _ => rfl, fun p hp => absurd hp (by simp)⟩
  | cons hd rest ih =>
    intro e seq positions hwf hkeys hnodup
    obtain ⟨k0, rec⟩ := hd
    have hk0 : rec.key = k0 := hkeys (k0, rec) (List.mem_cons_self _ _)
    simp only [List.map_cons, List.nodup_cons] at hnodup
    obtain ⟨hwf1, hidx1, hseq1, _, _, hhas1, hpres1⟩ :=
      appendLogRecord_spec e (framedRecord seq rec) hwf
    obtain ⟨ihwf, ihidx, ihseq, ihpres, ihget, ihall⟩ := ih
      (e.appendLogRecord (framedRecord seq rec)).1 seq
      (mapInsert positions rec.key (e.appendLogRecord (framedRecord seq rec)).2)
      hwf1 (fun p hp => hkeys p (List.mem_cons_of_mem _ hp)) hnodup.2
    rw [commitAppends_cons]
    refine ⟨ihwf, by rw [ihidx, hidx1], by rw [ihseq, hseq1], ?_, ?_, ?_⟩
    · intro pos0 r0 h0
      exact ihpres pos0 r0 (hpres1 pos0 r0 h0)
    · intro k hk
      have hk0ne : k0 ≠ k := hk (k0, rec) (List.mem_cons_self _ _)
      rw [ihget k (fun p hp => hk p (List.mem_cons_of_mem _ hp))]
      rw [hk0, mapGet_insert_ne _ _ _ _ (Ne.symm hk0ne)]
    · intro p hp
      rcases List.mem_cons.mp hp with hp | hp
      · subst hp
        refine ⟨(e.appendLogRecord (framedRecord seq rec)).2, ?_, ?_⟩
        · rw [ihget k0 ?_]
          · rw [hk0, mapGet_insert_self]
          · intro q hq hq0
            exact hnodup.1 (hq0 ▸ List.mem_map_of_mem Prod.fst hq)
        · exact ihpres _ _ hhas1
      · exact ihall p hp

/-- Step 8 of `commit` for a staging area of NORMAL records with
distinct keys, all present in `positions`: the `unwrap` cannot panic,
each staged key's index entry becomes its recorded position, and other
keys are untouched. -/
theorem applyBatchToIndex_spec (pending : PendingWrites) :
    ∀ (positions idx : Index),
      (∀ p ∈ pending, p.2.key = p.1 ∧ p.2.record_type = .NORMAL) →
      (pending.map Prod.fst).Nodup →
      (∀ p ∈ pending, ∃ pos, mapGet positions p.1 = some pos) →
      ∃ idxF, applyBatchToIndex positions idx pending = some idxF ∧
        (∀ k, (∀ p ∈ pending, p.1 ≠ k) → mapGet idxF k = mapGet idx k) ∧
        (∀ p ∈ pending, mapGet idxF p.1 = mapGet positions p.1) := by
  induction pending with
  | nil =>
    intro positions idx _ _ _
    exact ⟨idx, rfl, fun _ _ => rfl, fun p hp => absurd hp (by simp)⟩
  | cons hd rest ih =>
    intro positions idx hstaged hnodup hpos
    obtain ⟨k0, rec⟩ := hd
    obtain ⟨hk0, htype⟩ := hstaged (k0, rec) (List.mem_cons_self _ _)
    obtain ⟨pos0, hpos0⟩ := hpos (k0, rec) (List.mem_cons_self _ _)
    simp only [List.map_cons, List.nodup_cons] at hnodup
    obtain ⟨idxF, happly, ihother, ihall⟩ := ih positions (btreePut idx rec.key pos0).1
      (fun p hp => hstaged p (List.mem_cons_of_mem _ hp)) hnodup.2
      (fun p hp => hpos p (List.mem_cons_of_mem _ hp))
    have hstep : applyBatchToIndex positions idx ((k0, rec) :: rest)
        = applyBatchToIndex positions (btreePut idx rec.key pos0).1 rest := by
      simp only [applyBatchToIndex]
      rw [if_pos htype, hpos0]
    refine ⟨idxF, by rw [hstep]; exact happly, ?_, ?_⟩
    · intro k hk
      rw [ihother k (fun p hp => hk p (List.mem_cons_of_mem _ hp))]
      show mapGet (mapInsert idx rec.key pos0) k = mapGet idx k
      exact mapGet_insert_ne _ _ _ _
        (fun hEq => hk (k0, rec) (List.mem_cons_self _ _) (hk0 ▸ hEq.symm))
    · intro p hp
      rcases List.mem_cons.mp hp with hp | hp
      · subst hp
        dsimp only
        rw [hpos0]
        rw [ihother k0 ?_]
        · show mapGet (mapInsert idx rec.key pos0) k0 = some pos0
          rw [hk0, mapGet_insert_self]
        · intro q hq hq0
          exact hnodup.1 (hq0 ▸ List.mem_map_of_mem Prod.fst hq)
      · exact ihall p hp

/-- Shape of `commit` on a non-empty batch that fits the size limit:
allocate `seq_num`, bump the counter, append the staged records, append
the `TXN_FINISHED` marker, then apply the staged effects to the index. -/
theorem wbCommit_eq (e : Engine) (maxBatchSize : Nat) (pending : PendingWrites)
    (hne : pending ≠ []) (hsz : ¬ pending.length > maxBatchSize) :
    wbCommit e maxBatchSize pending =
      match applyBatchToIndex
          (commitAppends { e with seq_num := e.seq_num + 1 } e.seq_num [] pending).2
          ((commitAppends { e with seq_num := e.seq_num + 1 } e.seq_num [] pending).1.appendLogRecord
            { key := logRecordKeyWithSeqNum TXN_FINISH_KEY e.seq_num
              value := []
              record_type := .TXNFINISHED }).1.index pending with
      | none => .crash
      | some idx =>
        .ok { ((commitAppends { e with seq_num := e.seq_num + 1 } e.seq_num [] pending).1.appendLogRecord
            { key := logRecordKeyWithSeqNum TXN_FINISH_KEY e.seq_num
              value := []
              record_type := .TXNFINISHED }).1 with index := idx } := by
  unfold wbCommit
  rw [if_neg hne, if_neg hsz]

/-- C4: for a write batch staging NORMAL records under distinct fresh
keys, every staged key is invisible to `Engine::get` before `commit`
(it returns `KEY_NOT_FOUND`); `commit` succeeds and afterwards `get`
on each staged key returns the staged value; and the commit advances
the engine's sequence counter by exactly 1. -/
theorem c4_batch_stage_commit (e : Engine) (pending : PendingWrites) (maxBatchSize : Nat)
    (hwf : EngineWF e)
    (hstaged : ∀ p ∈ pending, p.2.key = p.1 ∧ p.2.record_type = .NORMAL ∧ GoodKV p.1 p.2.value)
    (hnodup : (pending.map Prod.fst).Nodup)
    (hfresh : ∀ p ∈ pending, mapGet e.index p.1 = none)
    (hne : pending ≠ [])
    (hsz : pending.length ≤ maxBatchSize)
    (hseq : e.seq_num < 2 ^ 32) :
    (∀ p ∈ pending, e.get p.1 = .err .keyNotFound) ∧
    ∃ e1, wbCommit e maxBatchSize pending = .ok e1 ∧
      (∀ p ∈ pending, e1.get p.1 = .ok p.2.value) ∧
      e1.seq_num = e.seq_num + 1 := by
  refine ⟨fun p hp => get_eq_of_none e p.1 (hstaged p hp).2.2.1 (hfresh p hp), ?_⟩
  obtain ⟨hwf2, hidx2, hseq2, hpres2, hget2, hall2⟩ :=
    commitAppends_spec pending { e with seq_num := e.seq_num + 1 } e.seq_num []
      hwf (fun p hp => (hstaged p hp).1) hnodup
  obtain ⟨hwf3, hidx3, hseq3, _, _, _, hpres3⟩ :=
    appendLogRecord_spec
      (commitAppends { e with seq_num := e.seq_num + 1 } e.seq_num [] pending).1
      { key := logRecordKeyWithSeqNum TXN_FINISH_KEY e.seq_num
        value := []
        record_type := .TXNFINISHED }
      hwf2
  obtain ⟨idxF, happly, hother, hallpos⟩ :=
    applyBatchToIndex_spec pending
      (commitAppends { e with seq_num := e.seq_num + 1 } e.seq_num [] pending).2
      ((commitAppends { e with seq_num := e.seq_num + 1 } e.seq_num [] pending).1.appendLogRecord
        { key := logRecordKeyWithSeqNum TXN_FINISH_KEY e.seq_num
          value := []
          record_type := .TXNFINISHED }).1.index
      (fun p hp => ⟨(hstaged p hp).1, (hstaged p hp).2.1⟩) hnodup
      (fun p hp => (hall2 p hp).imp fun pos h => h.1)
  rw [wbCommit_eq e maxBatchSize pending hne (by omega), happly]
  refine ⟨_, rfl, ?_, hseq3.trans hseq2⟩
  intro p hp
  obtain ⟨hkey, htype, hgood⟩ := hstaged p hp
  obtain ⟨pos, hm, hrec⟩ := hall2 p hp
  have hm2 : mapGet idxF p.1 = some pos := (hallpos p hp).trans hm
  have hwfr : WFRecord (framedRecord e.seq_num p.2) := by
    have h := wf_framed p.1 p.2.value e.seq_num p.2.record_type hgood hseq
    rwa [← hkey] at h
  refine Eq.trans (get_eq_of_some _ p.1 pos hgood.1 ?_) ?_
  · exact hm2
  refine Eq.trans (getValue_hasRecord _ pos (framedRecord e.seq_num p.2) ?_ hwfr) ?_
  · exact hpres3 _ _ hrec
  dsimp only [framedRecord]
  rw [htype]

theorem c4_batch_stage_commit_witness :
    (∀ p ∈ c4Pending, c4Base.get p.1 = .err .keyNotFound) ∧
    ∃ e1, wbCommit c4Base 100 c4Pending = .ok e1 ∧
      (∀ p ∈ c4Pending, e1.get p.1 = .ok p.2.value) ∧
      e1.seq_num = c4Base.seq_num + 1 :=
  c4_batch_stage_commit c4Base c4Pending 100
    ⟨rfl, by decide, by decide⟩
    (by
      intro p hp
      rcases List.mem_cons.mp hp with h | h
      · subst h
        exact ⟨rfl, rfl, by decide, by decide, by decide, by decide, by decide⟩
      rcases List.mem_cons.mp h with h | h
      · subst h
        exact ⟨rfl, rfl, by decide, by decide, by decide, by decide, by decide⟩
      · exact absurd h (List.not_mem_nil p))
    (by decide)
    (by intro p hp; rfl)
    (by decide)
    (by decide)
    (by decide)

end Bitcask
